import Mathlib

/-!
Verification of the dexon-consensus core against its specification.

The development shallowly embeds the Go sources under `core/`
(`nodeset-cache.go`, `dkg-tsig-protocol.go`, `consensus.go`) as executable
Lean definitions.  Go maps are embedded as association lists over `Nat`
keys, `uint64` arithmetic is carried out explicitly modulo `2 ^ 64`, and
fallible operations return `Except`.  Cryptographic primitives and the few
helper functions living outside the embedded files are modelled from the
specification and documented as such at their definitions.
-/

/-! ## Association-list helpers (embedding of Go maps) -/

def lookupA {α : Type} : List (Nat × α) → Nat → Option α
  | [], _ => none
  | p :: ps, k => if p.1 = k then some p.2 else lookupA ps k

def keysA {α : Type} (l : List (Nat × α)) : List Nat := l.map Prod.fst

/-- Go map assignment `m[k] = v`: replace the binding when present,
append it otherwise. -/
def setA {α : Type} (l : List (Nat × α)) (k : Nat) (v : α) : List (Nat × α) :=
  match lookupA l k with
  | some _ => l.map (fun p => if p.1 = k then (k, v) else p)
  | none => l ++ [(k, v)]

theorem lookupA_eq_none_iff {α : Type} (l : List (Nat × α)) (k : Nat) :
    lookupA l k = none ↔ k ∉ keysA l := by
  induction l with
  | nil => simp [lookupA, keysA]
  | cons p ps ih =>
    by_cases h : p.1 = k
    · simp [lookupA, keysA, h]
    · simp only [lookupA, keysA, h, if_false, List.map_cons, List.mem_cons]
      rw [ih]
      unfold keysA
      constructor
      · intro hk hc
        rcases hc with hc | hc
        · exact h hc.symm
        · exact hk hc
      · intro hk hc
        exact hk (Or.inr hc)

theorem lookupA_append_right {α : Type} (l m : List (Nat × α)) (k : Nat)
    (h : lookupA l k = none) : lookupA (l ++ m) k = lookupA m k := by
  induction l with
  | nil => simp
  | cons p ps ih =>
    by_cases hp : p.1 = k
    · simp [lookupA, hp] at h
    · simp only [lookupA, hp, if_false, List.cons_append] at h ⊢
      exact ih h

theorem lookupA_append_left {α : Type} (l m : List (Nat × α)) (k : Nat) (v : α)
    (h : lookupA l k = some v) : lookupA (l ++ m) k = some v := by
  induction l with
  | nil => simp [lookupA] at h
  | cons p ps ih =>
    by_cases hp : p.1 = k <;>
      simp only [lookupA, hp, if_true, if_false, List.cons_append] at h ⊢
    · exact h
    · exact ih h

theorem setA_of_none {α : Type} (l : List (Nat × α)) (k : Nat) (v : α)
    (h : lookupA l k = none) : setA l k v = l ++ [(k, v)] := by
  simp [setA, h]

/-! ## NodeSetCache (core/nodeset-cache.go) -/

abbrev NodeID := Nat
abbrev PubKey := Nat

/-- Modelled from the spec: `types.NewNodeID` (not under src/) derives a
NodeID as the Keccak256 of the public-key bytes.  The hash is treated as an
injective abstract encoding and modelled as the identity on the abstract
key values. -/
def NewNodeID (k : PubKey) : NodeID := k

structure ConfigM where
  numChains : Nat
  numNotarySet : Nat
  numDKGSet : Nat
  dkgSetSize : Nat
  deriving DecidableEq

/-- Modelled from the spec: the rank `H(crs ‖ tag ‖ nodeID)` of §4.1, with
Keccak256 standing in as an injective pairing function. -/
def rankOf (crs tag nID : Nat) : Nat := Nat.pair (Nat.pair crs tag) nID

def insertRanked (key : NodeID → Nat) (n : NodeID) : List NodeID → List NodeID
  | [] => [n]
  | m :: ms => if key n ≤ key m then n :: m :: ms else m :: insertRanked key n ms

def sortRanked (key : NodeID → Nat) : List NodeID → List NodeID
  | [] => []
  | n :: ns => insertRanked key n (sortRanked key ns)

/-- Modelled from the spec: `types.NodeSet.GetSubSet` (not under src/)
returns the `m` nodes of smallest CRS-keyed rank, ties broken by node ID;
since `rankOf` is injective in the node ID, ranking by `rankOf` alone
already breaks ties. -/
def getSubSetM (ns : List NodeID) (m : Nat) (crs tag : Nat) : List NodeID :=
  (sortRanked (fun n => rankOf crs tag n) ns).take m

/-- Modelled from the spec: the tag of `types.NewDKGSetTarget crs`. -/
def dkgTag : Nat := 0

/-- Modelled from the spec: the tag of `types.NewNotarySetTarget crs chainID`. -/
def notaryTag (chainID : Nat) : Nat := chainID + 1

/-- The `sets` record cached per round. -/
structure SetsV where
  nodeSet : List NodeID
  notarySet : List (List NodeID)
  dkgSet : List NodeID
  deriving DecidableEq

/-- An entry of `NodeSetCache.keyPool`: public key plus reference count
(`refCnt` is a Go `int`, hence `Int`). -/
structure KeyRec where
  pubKey : PubKey
  refCnt : Int
  deriving DecidableEq

/-- The mutable state of a `NodeSetCache`: `rounds` and `keyPool` maps. -/
structure CacheState where
  rounds : List (Nat × SetsV)
  keyPool : List (NodeID × KeyRec)
  deriving DecidableEq

inductive CacheErr where
  | roundNotReady
  | invalidChainID
  deriving DecidableEq

def W64 : Nat := 2 ^ 64

/-- Go `uint64` subtraction `a - b` with wraparound. -/
def sub64 (a b : Nat) : Nat := (a % W64 + (W64 - b % W64)) % W64

/-- The key-pool update for one public key in `update`'s key-set loop:
bump the reference count when present, insert a fresh entry otherwise. -/
def poolIncr (pool : List (NodeID × KeyRec)) (key : PubKey) : List (NodeID × KeyRec) :=
  let nID := NewNodeID key
  match lookupA pool nID with
  | some _ => pool.map (fun p => if p.1 = nID then (p.1, ⟨p.2.pubKey, p.2.refCnt + 1⟩) else p)
  | none => pool ++ [(nID, ⟨key, 1⟩)]

/-- `types.NodeSet.Add`: insert a node ID if not already present. -/
def addNodeSet (ns : List NodeID) (n : NodeID) : List NodeID :=
  if n ∈ ns then ns else ns ++ [n]

/-- One iteration of `update`'s loop over the governance key set. -/
def updStep (acc : List NodeID × List (NodeID × KeyRec)) (key : PubKey) :
    List NodeID × List (NodeID × KeyRec) :=
  (addNodeSet acc.1 (NewNodeID key), poolIncr acc.2 key)

/-- The purge step for one member of a purged round: decrement the key-pool
reference count, dropping the entry when the count reaches zero.  (On a
missing entry Go would dereference nil; that case is unreachable under the
cache invariant and modelled as a no-op.) -/
def poolDecr (pool : List (NodeID × KeyRec)) (nID : NodeID) : List (NodeID × KeyRec) :=
  match lookupA pool nID with
  | none => pool
  | some rec =>
    if rec.refCnt - 1 = 0 then pool.filter (fun p => decide (p.1 ≠ nID))
    else pool.map (fun p => if p.1 = nID then (p.1, ⟨p.2.pubKey, p.2.refCnt - 1⟩) else p)

/-- The governance contract as consumed by the cache (`NodeSet` returning
`none` models the nil slice). -/
structure GovernanceM where
  nodeSetG : Nat → Option (List PubKey)
  configG : Nat → ConfigM
  crsG : Nat → Nat

/-- `NodeSetCache.update`: fetch the round from governance, populate the
per-round sets and the key pool, then purge every cached round `r'` with
`round - r' > 5` (uint64 subtraction), decrementing the purged members'
reference counts.  On a nil node set it fails with `roundNotReady` and
leaves the state unchanged. -/
def updateC (gov : GovernanceM) (st : CacheState) (round : Nat) :
    Except CacheErr SetsV × CacheState :=
  match gov.nodeSetG round with
  | none => (.error .roundNotReady, st)
  | some keySet =>
    let acc := keySet.foldl updStep ([], st.keyPool)
    let cfg := gov.configG round
    let crs := gov.crsG round
    let nIDs : SetsV :=
      { nodeSet := acc.1
        notarySet := (List.range cfg.numChains).map
          (fun i => getSubSetM acc.1 cfg.numNotarySet crs (notaryTag i))
        dkgSet := getSubSetM acc.1 cfg.numDKGSet crs dkgTag }
    let rounds1 := setA st.rounds round nIDs
    let purged := rounds1.filter (fun p => !(decide (sub64 round p.1 ≤ 5)))
    let kept := rounds1.filter (fun p => decide (sub64 round p.1 ≤ 5))
    let pool1 := purged.foldl (fun kp p => p.2.nodeSet.foldl poolDecr kp) acc.2
    (.ok nIDs, { rounds := kept, keyPool := pool1 })

/-- `NodeSetCache.get`. -/
def getC (st : CacheState) (round : Nat) : Option SetsV := lookupA st.rounds round

/-- `NodeSetCache.getOrUpdate` (`Exists` and `GetNodeSet` inline the same
get-then-update logic). -/
def getOrUpdateC (gov : GovernanceM) (st : CacheState) (round : Nat) :
    Except CacheErr SetsV × CacheState :=
  match getC st round with
  | some s => (.ok s, st)
  | none => updateC gov st round

/-- `NodeSetCache.Exists`. -/
def existsC (gov : GovernanceM) (st : CacheState) (round : Nat) (nID : NodeID) :
    Except CacheErr Bool × CacheState :=
  match getOrUpdateC gov st round with
  | (.ok s, st') => (.ok (decide (nID ∈ s.nodeSet)), st')
  | (.error e, st') => (.error e, st')

/-- `NodeSetCache.GetNodeSet` (the returned clone is the list value itself). -/
def getNodeSetC (gov : GovernanceM) (st : CacheState) (round : Nat) :
    Except CacheErr (List NodeID) × CacheState :=
  match getOrUpdateC gov st round with
  | (.ok s, st') => (.ok s.nodeSet, st')
  | (.error e, st') => (.error e, st')

/-- `NodeSetCache.GetNotarySet`: lazily populate, then bounds-check the
chain ID against the cached notary-set slice (`cloneMap` is the identity
on the embedded list values). -/
def getNotarySetC (gov : GovernanceM) (st : CacheState) (round : Nat) (chainID : Nat) :
    Except CacheErr (List NodeID) × CacheState :=
  match getOrUpdateC gov st round with
  | (.ok s, st') =>
    if chainID < s.notarySet.length then (.ok (s.notarySet.getD chainID []), st')
    else (.error .invalidChainID, st')
  | (.error e, st') => (.error e, st')

/-- `NodeSetCache.GetDKGSet`. -/
def getDKGSetC (gov : GovernanceM) (st : CacheState) (round : Nat) :
    Except CacheErr (List NodeID) × CacheState :=
  match getOrUpdateC gov st round with
  | (.ok s, st') => (.ok s.dkgSet, st')
  | (.error e, st') => (.error e, st')

/-! ### Key-pool accounting -/

/-- The reference count recorded for a node, `0` when absent. -/
def poolCount (pool : List (NodeID × KeyRec)) (n : NodeID) : Int :=
  ((lookupA pool n).map (fun r => r.refCnt)).getD 0

/-- How many cached rounds contain node `n` in their node set. -/
def roundsContaining (rs : List (Nat × SetsV)) (n : NodeID) : Nat :=
  rs.countP (fun p => decide (n ∈ p.2.nodeSet))

/-- Well-formedness of the key pool: distinct keys, positive counts. -/
def GoodPool (pool : List (NodeID × KeyRec)) : Prop :=
  (keysA pool).Nodup ∧ ∀ p ∈ pool, 0 < p.2.refCnt

/-- The NodeSetCache invariant: a well-formed pool whose reference counts
agree with the number of cached rounds containing each node (hence the
pool's support is exactly the union of the cached rounds' node sets),
rounds with distinct keys, and duplicate-free node sets. -/
def CacheInv (st : CacheState) : Prop :=
  GoodPool st.keyPool ∧
  (keysA st.rounds).Nodup ∧
  (∀ p ∈ st.rounds, p.2.nodeSet.Nodup) ∧
  (∀ n, poolCount st.keyPool n = (roundsContaining st.rounds n : Int))

/-! ### Association-list accounting lemmas -/

theorem lookupA_mem {α : Type} {l : List (Nat × α)} {k : Nat} {v : α}
    (h : lookupA l k = some v) : (k, v) ∈ l := by
  induction l with
  | nil => simp [lookupA] at h
  | cons p ps ih =>
    by_cases hp : p.1 = k
    · simp only [lookupA, hp, if_true, Option.some.injEq] at h
      subst h
      have hpp : (k, p.2) = p := by rw [← hp]
      rw [hpp]
      exact List.mem_cons_self _ _
    · simp only [lookupA, hp, if_false] at h
      exact List.mem_cons_of_mem _ (ih h)

theorem lookupA_of_mem_nodup {α : Type} {l : List (Nat × α)} {p : Nat × α}
    (hN : (keysA l).Nodup) (h : p ∈ l) : lookupA l p.1 = some p.2 := by
  induction l with
  | nil => simp at h
  | cons q qs ih =>
    simp only [keysA, List.map_cons, List.nodup_cons] at hN
    rcases List.mem_cons.mp h with h | h
    · subst h
      simp [lookupA]
    · have hq : q.1 ≠ p.1 := by
        intro he
        exact hN.1 (he ▸ List.mem_map_of_mem Prod.fst h)
      simp only [lookupA, hq, if_false]
      exact ih hN.2 h

theorem keysA_mapUpdate {α : Type} (l : List (Nat × α)) (k : Nat) (g : α → α) :
    keysA (l.map (fun p => if p.1 = k then (p.1, g p.2) else p)) = keysA l := by
  induction l with
  | nil => rfl
  | cons p ps ih =>
    by_cases hp : p.1 = k <;> simp [keysA, hp] at ih ⊢ <;> exact ih

theorem lookupA_mapUpdate {α : Type} (l : List (Nat × α)) (k : Nat) (g : α → α) (n : Nat) :
    lookupA (l.map (fun p => if p.1 = k then (p.1, g p.2) else p)) n =
      if n = k then (lookupA l k).map g else lookupA l n := by
  induction l with
  | nil => by_cases h : n = k <;> simp [lookupA, h]
  | cons p ps ih =>
    simp only [List.map_cons]
    by_cases hp : p.1 = k
    · simp only [hp, if_true]
      by_cases hn : n = k
      · subst hn
        simp [lookupA, hp]
      · have h1 : ¬(p.1 = n) := fun he => hn (by rw [← he]; exact hp)
        have h2 : ¬(k = n) := fun he => hn he.symm
        simp only [lookupA, hp, h1, if_false, ih, hn, h2]
    · simp only [hp, if_false]
      by_cases hpn : p.1 = n
      · have hn : ¬(n = k) := fun he => hp (by rw [hpn, he])
        simp only [lookupA, hpn, if_true, ih, hn, if_false]
      · simp only [lookupA, hpn, hp, if_false, ih]

theorem lookupA_filterNe {α : Type} (l : List (Nat × α)) (n m : Nat) :
    lookupA (l.filter (fun p => decide (p.1 ≠ n))) m =
      if m = n then none else lookupA l m := by
  induction l with
  | nil => by_cases h : m = n <;> simp [lookupA, h]
  | cons p ps ih =>
    by_cases hp : p.1 = n
    · have hd : (decide (p.1 ≠ n)) = false := by simp [hp]
      rw [List.filter_cons, hd]
      simp only [Bool.false_eq_true, if_false]
      rw [ih]
      by_cases hm : m = n
      · simp [hm]
      · have hpm : ¬(p.1 = m) := fun he => hm (by rw [← he]; exact hp)
        simp [lookupA, hm, hpm]
    · have hd : (decide (p.1 ≠ n)) = true := by simp [hp]
      rw [List.filter_cons, hd]
      simp only [if_true]
      by_cases hpm : p.1 = m
      · have hm : ¬(m = n) := fun he => hp (by rw [hpm, he])
        simp [lookupA, hpm, hm]
      · simp only [lookupA, hpm, if_false]
        exact ih

theorem lookupA_append {α : Type} (l m : List (Nat × α)) (k : Nat) :
    lookupA (l ++ m) k =
      match lookupA l k with
      | some v => some v
      | none => lookupA m k := by
  cases h : lookupA l k with
  | some v => exact lookupA_append_left l m k v h
  | none => exact lookupA_append_right l m k h

theorem countP_partition {α : Type} (p q : α → Bool) (l : List α) :
    (l.filter q).countP p + (l.filter (fun a => !(q a))).countP p = l.countP p := by
  induction l with
  | nil => rfl
  | cons a l ih =>
    by_cases h : q a = true <;>
      simp [List.filter_cons, h, List.countP_cons] <;> omega

theorem sub64_self (a : Nat) : sub64 a a = 0 := by
  have h : a % W64 < W64 := Nat.mod_lt _ (by norm_num [W64])
  simp only [sub64]
  rw [Nat.add_sub_cancel' (Nat.le_of_lt h)]
  exact Nat.mod_self _

/-! ### Key-pool increment lemmas -/

theorem poolIncr_of_some (pool : List (NodeID × KeyRec)) (key : PubKey) (rec : KeyRec)
    (h : lookupA pool (NewNodeID key) = some rec) :
    poolIncr pool key =
      pool.map (fun p => if p.1 = NewNodeID key then
        (p.1, ⟨p.2.pubKey, p.2.refCnt + 1⟩) else p) := by
  simp [poolIncr, h]

theorem poolIncr_of_none (pool : List (NodeID × KeyRec)) (key : PubKey)
    (h : lookupA pool (NewNodeID key) = none) :
    poolIncr pool key = pool ++ [(NewNodeID key, ⟨key, 1⟩)] := by
  simp [poolIncr, h]

theorem poolIncr_count (pool : List (NodeID × KeyRec)) (key : PubKey) (n : NodeID) :
    poolCount (poolIncr pool key) n =
      poolCount pool n + (if n = NewNodeID key then 1 else 0) := by
  cases h : lookupA pool (NewNodeID key) with
  | some rec =>
    rw [poolIncr_of_some pool key rec h]
    simp only [poolCount]
    rw [lookupA_mapUpdate pool (NewNodeID key) (fun r => ⟨r.pubKey, r.refCnt + 1⟩) n]
    by_cases hn : n = NewNodeID key
    · simp [hn, h]
    · simp [hn]
  | none =>
    rw [poolIncr_of_none pool key h]
    simp only [poolCount]
    rw [lookupA_append]
    by_cases hn : n = NewNodeID key
    · subst hn
      simp only [NewNodeID] at h ⊢
      simp [h, lookupA]
    · cases hl : lookupA pool n with
      | some rec => simp [hl, hn]
      | none =>
        have hne : ¬(NewNodeID key = n) := fun he => hn he.symm
        simp [hl, lookupA, hne, hn]

theorem poolIncr_good (pool : List (NodeID × KeyRec)) (key : PubKey)
    (h : GoodPool pool) : GoodPool (poolIncr pool key) := by
  obtain ⟨hN, hP⟩ := h
  cases hl : lookupA pool (NewNodeID key) with
  | some rec =>
    rw [poolIncr_of_some pool key rec hl]
    constructor
    · rw [keysA_mapUpdate pool (NewNodeID key) (fun r => ⟨r.pubKey, r.refCnt + 1⟩)]
      exact hN
    · intro p hp
      rcases List.mem_map.mp hp with ⟨q, hq, he⟩
      by_cases hqk : q.1 = NewNodeID key
      · simp only [hqk, if_true] at he
        subst he
        have := hP q hq
        simp only []
        omega
      · simp only [hqk, if_false] at he
        subst he
        exact hP q hq
  | none =>
    rw [poolIncr_of_none pool key hl]
    constructor
    · unfold keysA
      rw [List.map_append]
      simp only [List.map_cons, List.map_nil]
      rw [List.nodup_append]
      refine ⟨hN, List.nodup_singleton _, ?_⟩
      intro a ha hb
      simp only [List.mem_singleton] at hb
      rw [hb] at ha
      exact (lookupA_eq_none_iff pool (NewNodeID key)).mp hl ha
    · intro p hp
      rcases List.mem_append.mp hp with hp | hp
      · exact hP p hp
      · simp only [List.mem_singleton] at hp
        subst hp
        norm_num

theorem foldl_updStep_fst (keySet : List PubKey) (ns : List NodeID)
    (pool : List (NodeID × KeyRec)) :
    (keySet.foldl updStep (ns, pool)).1 =
      keySet.foldl (fun acc k => addNodeSet acc (NewNodeID k)) ns := by
  induction keySet generalizing ns pool with
  | nil => rfl
  | cons k ks ih => simp only [List.foldl_cons, updStep]; exact ih _ _

theorem foldl_updStep_snd (keySet : List PubKey) (ns : List NodeID)
    (pool : List (NodeID × KeyRec)) :
    (keySet.foldl updStep (ns, pool)).2 =
      keySet.foldl poolIncr pool := by
  induction keySet generalizing ns pool with
  | nil => rfl
  | cons k ks ih => simp only [List.foldl_cons, updStep]; exact ih _ _

theorem foldl_poolIncr_count (keySet : List PubKey) (pool : List (NodeID × KeyRec))
    (n : NodeID) :
    poolCount (keySet.foldl poolIncr pool) n =
      poolCount pool n + (keySet.countP (fun k => decide (NewNodeID k = n)) : Int) := by
  induction keySet generalizing pool with
  | nil => simp
  | cons k ks ih =>
    simp only [List.foldl_cons, List.countP_cons]
    rw [ih, poolIncr_count]
    by_cases h : NewNodeID k = n
    · rw [decide_eq_true h, if_pos rfl, if_pos h.symm]
      push_cast
      ring
    · rw [decide_eq_false h, if_neg Bool.false_ne_true, if_neg (fun he => h he.symm)]
      push_cast
      ring

theorem foldl_poolIncr_good (keySet : List PubKey) (pool : List (NodeID × KeyRec))
    (h : GoodPool pool) : GoodPool (keySet.foldl poolIncr pool) := by
  induction keySet generalizing pool with
  | nil => exact h
  | cons k ks ih => exact ih _ (poolIncr_good _ _ h)

theorem addNodeSet_mem (ns : List NodeID) (a n : NodeID) :
    n ∈ addNodeSet ns a ↔ n ∈ ns ∨ n = a := by
  unfold addNodeSet
  by_cases h : a ∈ ns
  · simp only [h, if_true]
    constructor
    · exact Or.inl
    · rintro (hn | hn)
      · exact hn
      · exact hn ▸ h
  · simp [h]

theorem addNodeSet_nodup (ns : List NodeID) (a : NodeID) (h : ns.Nodup) :
    (addNodeSet ns a).Nodup := by
  unfold addNodeSet
  by_cases hm : a ∈ ns
  · simpa [hm]
  · rw [if_neg hm, List.nodup_append]
    refine ⟨h, List.nodup_singleton _, ?_⟩
    intro x hx hx'
    simp only [List.mem_singleton] at hx'
    subst hx'
    exact hm hx

theorem buildNodeSet_mem (keySet : List PubKey) (ns : List NodeID) (n : NodeID) :
    n ∈ keySet.foldl (fun acc k => addNodeSet acc (NewNodeID k)) ns ↔
      n ∈ ns ∨ n ∈ keySet.map NewNodeID := by
  induction keySet generalizing ns with
  | nil => simp
  | cons k ks ih =>
    simp only [List.foldl_cons, List.map_cons, List.mem_cons]
    rw [ih, addNodeSet_mem]
    tauto

theorem buildNodeSet_nodup (keySet : List PubKey) (ns : List NodeID) (h : ns.Nodup) :
    (keySet.foldl (fun acc k => addNodeSet acc (NewNodeID k)) ns).Nodup := by
  induction keySet generalizing ns with
  | nil => exact h
  | cons k ks ih => exact ih _ (addNodeSet_nodup _ _ h)

theorem countP_newNodeID_of_nodup (keySet : List PubKey) (n : NodeID)
    (h : (keySet.map NewNodeID).Nodup) :
    keySet.countP (fun k => decide (NewNodeID k = n)) =
      if n ∈ keySet.map NewNodeID then 1 else 0 := by
  induction keySet with
  | nil => simp
  | cons k ks ih =>
    simp only [List.map_cons, List.nodup_cons] at h
    obtain ⟨hk, hks⟩ := h
    simp only [List.countP_cons, List.map_cons, List.mem_cons]
    by_cases he : NewNodeID k = n
    · have hn : n ∉ ks.map NewNodeID := he ▸ hk
      rw [ih hks, decide_eq_true he, if_neg hn]
      simp [he.symm]
    · have h₂ : ¬(n = NewNodeID k) := fun hq => he hq.symm
      rw [ih hks, decide_eq_false he, if_neg Bool.false_ne_true]
      by_cases hm : n ∈ ks.map NewNodeID <;> simp [h₂, hm]

/-! ### Key-pool decrement lemmas -/

theorem poolDecr_of_none (pool : List (NodeID × KeyRec)) (n : NodeID)
    (h : lookupA pool n = none) : poolDecr pool n = pool := by
  simp [poolDecr, h]

theorem poolDecr_of_some (pool : List (NodeID × KeyRec)) (n : NodeID) (rec : KeyRec)
    (h : lookupA pool n = some rec) :
    poolDecr pool n =
      if rec.refCnt - 1 = 0 then pool.filter (fun p => decide (p.1 ≠ n))
      else pool.map (fun p => if p.1 = n then (p.1, ⟨p.2.pubKey, p.2.refCnt - 1⟩) else p) := by
  simp [poolDecr, h]

theorem poolDecr_count (pool : List (NodeID × KeyRec)) (n : NodeID) (rec : KeyRec)
    (h : lookupA pool n = some rec) (m : NodeID) :
    poolCount (poolDecr pool n) m = poolCount pool m - (if m = n then 1 else 0) := by
  rw [poolDecr_of_some pool n rec h]
  by_cases hz : rec.refCnt - 1 = 0
  · rw [if_pos hz]
    simp only [poolCount]
    rw [lookupA_filterNe]
    by_cases hm : m = n
    · subst hm
      rw [if_pos rfl, if_pos rfl, h]
      show (0 : Int) = rec.refCnt - 1
      omega
    · rw [if_neg hm, if_neg hm]
      omega
  · rw [if_neg hz]
    simp only [poolCount]
    rw [lookupA_mapUpdate pool n (fun r => ⟨r.pubKey, r.refCnt - 1⟩) m]
    by_cases hm : m = n
    · subst hm
      rw [if_pos rfl, if_pos rfl, h]
      simp
    · rw [if_neg hm, if_neg hm]
      omega

theorem poolDecr_good (pool : List (NodeID × KeyRec)) (n : NodeID)
    (h : GoodPool pool) : GoodPool (poolDecr pool n) := by
  obtain ⟨hN, hP⟩ := h
  cases hl : lookupA pool n with
  | none => rw [poolDecr_of_none _ _ hl]; exact ⟨hN, hP⟩
  | some rec =>
    rw [poolDecr_of_some _ _ rec hl]
    by_cases hz : rec.refCnt - 1 = 0
    · rw [if_pos hz]
      constructor
      · exact List.Nodup.sublist ((List.filter_sublist pool).map Prod.fst) hN
      · intro p hp
        exact hP p (List.mem_of_mem_filter hp)
    · rw [if_neg hz]
      constructor
      · rw [keysA_mapUpdate pool n (fun r => ⟨r.pubKey, r.refCnt - 1⟩)]
        exact hN
      · intro p hp
        rcases List.mem_map.mp hp with ⟨q, hq, he⟩
        by_cases hqn : q.1 = n
        · simp only [hqn, if_true] at he
          have hlq := lookupA_of_mem_nodup hN hq
          rw [hqn, hl] at hlq
          have hq2 : rec = q.2 := by injection hlq
          have hq3 := hP q hq
          rw [← he]
          show (0 : Int) < q.2.refCnt - 1
          rw [← hq2]
          rw [← hq2] at hq3
          omega
        · simp only [hqn, if_false] at he
          rw [← he]
          exact hP q hq

theorem foldl_poolDecr_spec (members : List NodeID) (pool : List (NodeID × KeyRec)) :
    members.Nodup → GoodPool pool →
    (∀ n ∈ members, 0 < poolCount pool n) →
    GoodPool (members.foldl poolDecr pool) ∧
      ∀ m, poolCount (members.foldl poolDecr pool) m =
        poolCount pool m - (if m ∈ members then 1 else 0) := by
  induction members generalizing pool with
  | nil =>
    intro _ hG _
    exact ⟨hG, by simp⟩
  | cons a ms ih =>
    intro hNd hG hPos
    simp only [List.nodup_cons] at hNd
    obtain ⟨ha, hms⟩ := hNd
    simp only [List.foldl_cons]
    have hl : ∃ rec, lookupA pool a = some rec := by
      have hp := hPos a (List.mem_cons_self _ _)
      cases he : lookupA pool a with
      | none => simp [poolCount, he] at hp
      | some rec => exact ⟨rec, rfl⟩
    obtain ⟨rec, hrec⟩ := hl
    have hcnt := poolDecr_count pool a rec hrec
    have hg' := poolDecr_good pool a hG
    have hpos' : ∀ n ∈ ms, 0 < poolCount (poolDecr pool a) n := by
      intro n hn
      rw [hcnt n, if_neg (fun he : n = a => ha (he ▸ hn))]
      have := hPos n (List.mem_cons_of_mem _ hn)
      simpa using this
    obtain ⟨hg2, hc2⟩ := ih (poolDecr pool a) hms hg' hpos'
    refine ⟨hg2, ?_⟩
    intro m
    rw [hc2 m, hcnt m]
    by_cases hm1 : m = a
    · subst hm1
      rw [if_neg (fun hc : m ∈ ms => ha hc)]
      simp
    · rw [if_neg hm1]
      simp only [List.mem_cons, hm1, false_or]
      by_cases hm2 : m ∈ ms
      · simp only [if_pos hm2]
        ring
      · simp only [if_neg hm2]
        ring

theorem roundsContaining_cons (p : Nat × SetsV) (P : List (Nat × SetsV)) (n : NodeID) :
    roundsContaining (p :: P) n =
      roundsContaining P n + (if n ∈ p.2.nodeSet then 1 else 0) := by
  simp [roundsContaining, List.countP_cons]

theorem roundsContaining_append (l m : List (Nat × SetsV)) (n : NodeID) :
    roundsContaining (l ++ m) n = roundsContaining l n + roundsContaining m n := by
  simp [roundsContaining, List.countP_append]

theorem roundsContaining_partition (q : Nat × SetsV → Bool) (l : List (Nat × SetsV)) (n : NodeID) :
    roundsContaining (l.filter q) n + roundsContaining (l.filter (fun a => !(q a))) n =
      roundsContaining l n := by
  unfold roundsContaining
  exact countP_partition _ q l

theorem purgeFold_spec (P : List (Nat × SetsV)) (pool : List (NodeID × KeyRec)) :
    (∀ p ∈ P, p.2.nodeSet.Nodup) → GoodPool pool →
    (∀ n, (roundsContaining P n : Int) ≤ poolCount pool n) →
    GoodPool (P.foldl (fun kp p => p.2.nodeSet.foldl poolDecr kp) pool) ∧
      ∀ m, poolCount (P.foldl (fun kp p => p.2.nodeSet.foldl poolDecr kp) pool) m =
        poolCount pool m - (roundsContaining P m : Int) := by
  induction P generalizing pool with
  | nil =>
    intro _ hG _
    exact ⟨hG, by simp [roundsContaining]⟩
  | cons p P ih =>
    intro hNds hG hB
    simp only [List.foldl_cons]
    have hPos : ∀ n ∈ p.2.nodeSet, 0 < poolCount pool n := by
      intro n hn
      have h1 := hB n
      rw [roundsContaining_cons, if_pos hn] at h1
      push_cast at h1
      have h3 : (0 : Int) ≤ (roundsContaining P n : Int) := Int.natCast_nonneg _
      linarith
    obtain ⟨hg1, hc1⟩ :=
      foldl_poolDecr_spec p.2.nodeSet pool (hNds p (List.mem_cons_self _ _)) hG hPos
    have hB' : ∀ n, (roundsContaining P n : Int) ≤
        poolCount (p.2.nodeSet.foldl poolDecr pool) n := by
      intro n
      rw [hc1 n]
      have h1 := hB n
      rw [roundsContaining_cons] at h1
      by_cases hq : n ∈ p.2.nodeSet
      · rw [if_pos hq] at h1 ⊢
        push_cast at h1 ⊢
        omega
      · rw [if_neg hq] at h1 ⊢
        push_cast at h1 ⊢
        omega
    obtain ⟨hg2, hc2⟩ := ih _ (fun q hq => hNds q (List.mem_cons_of_mem _ hq)) hg1 hB'
    refine ⟨hg2, ?_⟩
    intro m
    rw [hc2 m, hc1 m, roundsContaining_cons]
    by_cases hq : m ∈ p.2.nodeSet
    · simp only [if_pos hq]
      push_cast
      ring
    · simp only [if_neg hq]
      push_cast
      ring

theorem roundsContaining_singleton (r : Nat) (s : SetsV) (n : NodeID) :
    roundsContaining [(r, s)] n = if n ∈ s.nodeSet then 1 else 0 := by
  simp [roundsContaining, List.countP_cons]

/-- Proof-side name for the `sets` record built by a successful `update`
(the value of the `nIDs` let-binding in `updateC`). -/
def updNewSets (gov : GovernanceM) (st : CacheState) (round : Nat)
    (keySet : List PubKey) : SetsV :=
  { nodeSet := (keySet.foldl updStep ([], st.keyPool)).1
    notarySet := (List.range (gov.configG round).numChains).map
      (fun i => getSubSetM (keySet.foldl updStep ([], st.keyPool)).1
        (gov.configG round).numNotarySet (gov.crsG round) (notaryTag i))
    dkgSet := getSubSetM (keySet.foldl updStep ([], st.keyPool)).1
      (gov.configG round).numDKGSet (gov.crsG round) dkgTag }

/-- Proof-side name for the state left behind by a successful `update`. -/
def updNewState (gov : GovernanceM) (st : CacheState) (round : Nat)
    (keySet : List PubKey) : CacheState :=
  { rounds := (setA st.rounds round (updNewSets gov st round keySet)).filter
      (fun p => decide (sub64 round p.1 ≤ 5))
    keyPool := ((setA st.rounds round (updNewSets gov st round keySet)).filter
      (fun p => !(decide (sub64 round p.1 ≤ 5)))).foldl
      (fun kp p => p.2.nodeSet.foldl poolDecr kp)
      (keySet.foldl updStep ([], st.keyPool)).2 }

theorem updateC_eq (gov : GovernanceM) (st : CacheState) (round : Nat)
    (keySet : List PubKey) (h : gov.nodeSetG round = some keySet) :
    updateC gov st round =
      (.ok (updNewSets gov st round keySet), updNewState gov st round keySet) := by
  simp only [updateC, h, updNewSets, updNewState]

/-- For a successful, freshly-populating `update` from an invariant-satisfying
state: the surviving rounds all lie in the 5-round window below `round`
(uint64 subtraction), the invariant is preserved, and the new round is cached
with the returned sets. -/
theorem updateC_ok_spec {gov : GovernanceM} {st : CacheState} {round : Nat}
    {s : SetsV} {st' : CacheState}
    (hInv : CacheInv st)
    (hNodup : ∀ ks, gov.nodeSetG round = some ks → (ks.map NewNodeID).Nodup)
    (hFresh : lookupA st.rounds round = none)
    (hOk : updateC gov st round = (.ok s, st')) :
    (∀ p ∈ st'.rounds, sub64 round p.1 ≤ 5) ∧
    CacheInv st' ∧
    lookupA st'.rounds round = some s := by
  obtain ⟨hGP, hRN, hNS, hPC⟩ := hInv
  cases hg : gov.nodeSetG round with
  | none => simp [updateC, hg] at hOk
  | some keySet =>
    have hkn := hNodup keySet hg
    rw [updateC_eq gov st round keySet hg] at hOk
    injection hOk with h1 h2
    injection h1 with h1
    subst h1
    subst h2
    have hmemNew : ∀ n, (n ∈ (updNewSets gov st round keySet).nodeSet ↔
        n ∈ keySet.map NewNodeID) := by
      intro n
      show n ∈ (keySet.foldl updStep ([], st.keyPool)).1 ↔ _
      rw [foldl_updStep_fst, buildNodeSet_mem]
      simp
    have hnodupNew : (updNewSets gov st round keySet).nodeSet.Nodup := by
      show (keySet.foldl updStep ([], st.keyPool)).1.Nodup
      rw [foldl_updStep_fst]
      exact buildNodeSet_nodup keySet [] List.nodup_nil
    have hgoodA : GoodPool (keySet.foldl updStep ([], st.keyPool)).2 := by
      rw [foldl_updStep_snd]
      exact foldl_poolIncr_good keySet st.keyPool hGP
    have hr1eq : setA st.rounds round (updNewSets gov st round keySet) =
        st.rounds ++ [(round, updNewSets gov st round keySet)] :=
      setA_of_none _ _ _ hFresh
    have hrc1 : ∀ n, roundsContaining (setA st.rounds round (updNewSets gov st round keySet)) n =
        roundsContaining st.rounds n + (if n ∈ keySet.map NewNodeID then 1 else 0) := by
      intro n
      rw [hr1eq, roundsContaining_append, roundsContaining_singleton]
      by_cases hm : n ∈ keySet.map NewNodeID
      · rw [if_pos hm, if_pos ((hmemNew n).mpr hm)]
      · rw [if_neg hm, if_neg (fun hc => hm ((hmemNew n).mp hc))]
    have hcountA : ∀ n, poolCount (keySet.foldl updStep ([], st.keyPool)).2 n =
        (roundsContaining (setA st.rounds round (updNewSets gov st round keySet)) n : Int) := by
      intro n
      rw [foldl_updStep_snd, foldl_poolIncr_count, hPC n,
        countP_newNodeID_of_nodup keySet n hkn, hrc1 n]
      by_cases hm : n ∈ keySet.map NewNodeID
      · rw [if_pos hm]
        push_cast
        ring
      · rw [if_neg hm]
        push_cast
        ring
    have hRN1 : (keysA (setA st.rounds round (updNewSets gov st round keySet))).Nodup := by
      rw [hr1eq]
      unfold keysA
      rw [List.map_append]
      simp only [List.map_cons, List.map_nil]
      rw [List.nodup_append]
      refine ⟨hRN, List.nodup_singleton _, ?_⟩
      intro a ha hb
      simp only [List.mem_singleton] at hb
      rw [hb] at ha
      exact (lookupA_eq_none_iff st.rounds round).mp hFresh ha
    have hNS1 : ∀ p ∈ setA st.rounds round (updNewSets gov st round keySet),
        p.2.nodeSet.Nodup := by
      intro p hp
      rw [hr1eq] at hp
      rcases List.mem_append.mp hp with hp | hp
      · exact hNS p hp
      · simp only [List.mem_singleton] at hp
        rw [hp]
        exact hnodupNew
    have hpart : ∀ n, roundsContaining ((setA st.rounds round (updNewSets gov st round keySet)).filter
          (fun p => decide (sub64 round p.1 ≤ 5))) n +
        roundsContaining ((setA st.rounds round (updNewSets gov st round keySet)).filter
          (fun p => !(decide (sub64 round p.1 ≤ 5)))) n =
        roundsContaining (setA st.rounds round (updNewSets gov st round keySet)) n :=
      fun n => roundsContaining_partition _ _ n
    obtain ⟨hg2, hc2⟩ := purgeFold_spec
      ((setA st.rounds round (updNewSets gov st round keySet)).filter
        (fun p => !(decide (sub64 round p.1 ≤ 5))))
      (keySet.foldl updStep ([], st.keyPool)).2
      (fun p hp => hNS1 p (List.mem_of_mem_filter hp)) hgoodA
      (by
        intro n
        rw [hcountA n]
        have := hpart n
        omega)
    refine ⟨?_, ⟨hg2, ?_, ?_, ?_⟩, ?_⟩
    · intro p hp
      have hp' : p ∈ (setA st.rounds round (updNewSets gov st round keySet)).filter
          (fun p => decide (sub64 round p.1 ≤ 5)) := hp
      exact of_decide_eq_true (List.mem_filter.mp hp').2
    · show (keysA ((setA st.rounds round (updNewSets gov st round keySet)).filter
          (fun p => decide (sub64 round p.1 ≤ 5)))).Nodup
      exact List.Nodup.sublist ((List.filter_sublist _).map Prod.fst) hRN1
    · intro p hp
      exact hNS1 p (List.mem_of_mem_filter hp)
    · intro n
      show poolCount (((setA st.rounds round (updNewSets gov st round keySet)).filter
          (fun p => !(decide (sub64 round p.1 ≤ 5)))).foldl
            (fun kp p => p.2.nodeSet.foldl poolDecr kp)
            (keySet.foldl updStep ([], st.keyPool)).2) n =
        (roundsContaining ((setA st.rounds round (updNewSets gov st round keySet)).filter
          (fun p => decide (sub64 round p.1 ≤ 5))) n : Int)
      rw [hc2 n, hcountA n]
      have := hpart n
      omega
    · show lookupA ((setA st.rounds round (updNewSets gov st round keySet)).filter
          (fun p => decide (sub64 round p.1 ≤ 5))) round =
        some (updNewSets gov st round keySet)
      rw [hr1eq, List.filter_append]
      have hone : [(round, updNewSets gov st round keySet)].filter
          (fun p => decide (sub64 round p.1 ≤ 5)) =
          [(round, updNewSets gov st round keySet)] := by
        simp [List.filter, sub64_self]
      rw [hone]
      have hnone : lookupA (st.rounds.filter
          (fun p => decide (sub64 round p.1 ≤ 5))) round = none := by
        rw [lookupA_eq_none_iff]
        intro hmem
        have hmem2 : round ∈ keysA st.rounds :=
          ((List.filter_sublist st.rounds).map Prod.fst).subset hmem
        exact (lookupA_eq_none_iff st.rounds round).mp hFresh hmem2
      rw [lookupA_append_right _ _ _ hnone]
      simp [lookupA]

/-- A freshly populated round is cached afterwards, independent of any
invariant assumptions. -/
theorem updNewState_lookup (gov : GovernanceM) (st : CacheState) (round : Nat)
    (keySet : List PubKey) (hFresh : lookupA st.rounds round = none) :
    lookupA (updNewState gov st round keySet).rounds round =
      some (updNewSets gov st round keySet) := by
  show lookupA ((setA st.rounds round (updNewSets gov st round keySet)).filter
      (fun p => decide (sub64 round p.1 ≤ 5))) round =
    some (updNewSets gov st round keySet)
  rw [setA_of_none _ _ _ hFresh, List.filter_append]
  have hone : [(round, updNewSets gov st round keySet)].filter
      (fun p => decide (sub64 round p.1 ≤ 5)) =
      [(round, updNewSets gov st round keySet)] := by
    simp [List.filter, sub64_self]
  rw [hone]
  have hnone : lookupA (st.rounds.filter
      (fun p => decide (sub64 round p.1 ≤ 5))) round = none := by
    rw [lookupA_eq_none_iff]
    intro hmem
    have hmem2 : round ∈ keysA st.rounds :=
      ((List.filter_sublist st.rounds).map Prod.fst).subset hmem
    exact (lookupA_eq_none_iff st.rounds round).mp hFresh hmem2
  rw [lookupA_append_right _ _ _ hnone]
  simp [lookupA]

/-- The empty cache state satisfies the invariant. -/
theorem cacheInv_empty : CacheInv ⟨[], []⟩ := by
  refine ⟨⟨by simp [keysA], by simp⟩, by simp [keysA], by simp, ?_⟩
  intro n
  simp [poolCount, roundsContaining, lookupA]

/-- Claim C1: a successful `NodeSetCache.update` populating round `round`
leaves no cached round `r'` with `round - r' > 5` (uint64 subtraction), and
afterwards the key pool contains exactly the union of the node IDs of the
cached rounds: each purged round's members have their reference counts
decremented and an entry is dropped exactly when its count reaches zero,
which is captured by preservation of the reference-count invariant
`CacheInv` together with the support characterisation in the last
conjunct. -/
theorem nodeSetCache_update_window_and_keyPool
    (gov : GovernanceM) (st : CacheState) (round : Nat) (s : SetsV) (st' : CacheState)
    (hInv : CacheInv st)
    (hNodup : ∀ ks, gov.nodeSetG round = some ks → (ks.map NewNodeID).Nodup)
    (hFresh : lookupA st.rounds round = none)
    (hOk : updateC gov st round = (.ok s, st')) :
    (∀ r' ∈ keysA st'.rounds, sub64 round r' ≤ 5) ∧
    CacheInv st' ∧
    (∀ n, (lookupA st'.keyPool n).isSome ↔ ∃ p ∈ st'.rounds, n ∈ p.2.nodeSet) := by
  obtain ⟨hwin, hinv', _⟩ := updateC_ok_spec hInv hNodup hFresh hOk
  refine ⟨?_, hinv', ?_⟩
  · intro r' hr'
    rcases List.mem_map.mp hr' with ⟨p, hp, he⟩
    rw [← he]
    exact hwin p hp
  · intro n
    obtain ⟨⟨hkN, hkP⟩, _, _, hcnt⟩ := hinv'
    constructor
    · intro hs
      cases hl : lookupA st'.keyPool n with
      | none => rw [hl] at hs; simp at hs
      | some rec =>
        have hmem := lookupA_mem hl
        have hpos : 0 < rec.refCnt := hkP _ hmem
        have hc := hcnt n
        have hcv : poolCount st'.keyPool n = rec.refCnt := by simp [poolCount, hl]
        rw [hcv] at hc
        have h2 : 0 < roundsContaining st'.rounds n := by omega
        rcases List.countP_pos_iff.mp h2 with ⟨p, hp, hpred⟩
        exact ⟨p, hp, of_decide_eq_true hpred⟩
    · rintro ⟨p, hp, hmem⟩
      have h1 : 0 < roundsContaining st'.rounds n :=
        List.countP_pos_iff.mpr ⟨p, hp, by simpa using hmem⟩
      have hc := hcnt n
      cases hl : lookupA st'.keyPool n with
      | some rec => simp
      | none =>
        have hcv : poolCount st'.keyPool n = 0 := by simp [poolCount, hl]
        rw [hcv] at hc
        omega

/-- Concrete governance for the cache witnesses: three keys for every
round up to 10. -/
def exGovA : GovernanceM :=
  { nodeSetG := fun r => if r ≤ 10 then some [1, 2, 3] else none
    configG := fun _ => ⟨1, 2, 2, 3⟩
    crsG := fun _ => 7 }

theorem nodeSetCache_update_window_and_keyPool_witness :
    (∀ r' ∈ keysA (updNewState exGovA ⟨[], []⟩ 0 [1, 2, 3]).rounds, sub64 0 r' ≤ 5) ∧
    CacheInv (updNewState exGovA ⟨[], []⟩ 0 [1, 2, 3]) ∧
    (∀ n, (lookupA (updNewState exGovA ⟨[], []⟩ 0 [1, 2, 3]).keyPool n).isSome ↔
      ∃ p ∈ (updNewState exGovA ⟨[], []⟩ 0 [1, 2, 3]).rounds, n ∈ p.2.nodeSet) :=
  nodeSetCache_update_window_and_keyPool exGovA ⟨[], []⟩ 0
    (updNewSets exGovA ⟨[], []⟩ 0 [1, 2, 3]) (updNewState exGovA ⟨[], []⟩ 0 [1, 2, 3])
    cacheInv_empty
    (by intro ks h; simp [exGovA] at h; rw [← h]; decide)
    rfl
    (updateC_eq exGovA ⟨[], []⟩ 0 [1, 2, 3] (by decide))

theorem w64_value : W64 = 18446744073709551616 := by norm_num [W64]

/-- Claim C2: the purge condition `round - rID > 5` is computed in uint64
arithmetic, so a successful `update` for an older round `round` wraps the
subtraction for every strictly newer cached round `r'` (as long as
`r' - round < 2^64 - 5`), purging `r'` and decrementing its members'
reference counts (the preserved invariant `CacheInv` records the
decremented counts): newer rounds are evicted, not retained. -/
theorem nodeSetCache_update_wrap_evicts_newer
    (gov : GovernanceM) (st : CacheState) (round r' : Nat) (s : SetsV) (st' : CacheState)
    (hInv : CacheInv st)
    (hNodup : ∀ ks, gov.nodeSetG round = some ks → (ks.map NewNodeID).Nodup)
    (hFresh : lookupA st.rounds round = none)
    (hr : round < W64) (hr' : r' < W64)
    (hCached : r' ∈ keysA st.rounds) (hNewer : round < r')
    (hGap : r' - round < W64 - 5)
    (hOk : updateC gov st round = (.ok s, st')) :
    r' ∉ keysA st'.rounds ∧ CacheInv st' := by
  obtain ⟨hwin, hinv', _⟩ := updateC_ok_spec hInv hNodup hFresh hOk
  refine ⟨?_, hinv'⟩
  intro hmem
  rcases List.mem_map.mp hmem with ⟨p, hp, he⟩
  have h5 := hwin p hp
  rw [he] at h5
  have hW := w64_value
  have hs : sub64 round r' = (round + (W64 - r')) % W64 := by
    unfold sub64
    rw [Nat.mod_eq_of_lt hr, Nat.mod_eq_of_lt hr']
  rw [hs, Nat.mod_eq_of_lt (by omega)] at h5
  omega

theorem nodeSetCache_update_wrap_evicts_newer_witness :
    3 ∉ keysA (updNewState exGovA (updNewState exGovA ⟨[], []⟩ 3 [1, 2, 3]) 0 [1, 2, 3]).rounds ∧
    CacheInv (updNewState exGovA (updNewState exGovA ⟨[], []⟩ 3 [1, 2, 3]) 0 [1, 2, 3]) :=
  nodeSetCache_update_wrap_evicts_newer exGovA
    (updNewState exGovA ⟨[], []⟩ 3 [1, 2, 3]) 0 3
    (updNewSets exGovA (updNewState exGovA ⟨[], []⟩ 3 [1, 2, 3]) 0 [1, 2, 3])
    (updNewState exGovA (updNewState exGovA ⟨[], []⟩ 3 [1, 2, 3]) 0 [1, 2, 3])
    ((updateC_ok_spec cacheInv_empty
      (by intro ks h; simp [exGovA] at h; rw [← h]; decide) rfl
      (updateC_eq exGovA ⟨[], []⟩ 3 [1, 2, 3] (by decide))).2.1)
    (by intro ks h; simp [exGovA] at h; rw [← h]; decide)
    (by decide)
    (by norm_num [W64]) (by norm_num [W64])
    (by decide) (by decide)
    (by norm_num [W64])
    (updateC_eq exGovA (updNewState exGovA ⟨[], []⟩ 3 [1, 2, 3]) 0 [1, 2, 3] (by decide))

/-- Claim C7: if governance has no node set for `round` (and the round is
not yet cached, so the lazy populate path runs), `Exists`, `GetNodeSet`,
`GetNotarySet` and `GetDKGSet` all fail with `roundNotReady` and leave the
cache state unchanged, so a later retry can succeed. -/
theorem nodeSetCache_roundNotReady_all_ops
    (gov : GovernanceM) (st : CacheState) (round : Nat) (nID : NodeID) (chainID : Nat)
    (hEmpty : gov.nodeSetG round = none)
    (hFresh : lookupA st.rounds round = none) :
    existsC gov st round nID = (.error .roundNotReady, st) ∧
    getNodeSetC gov st round = (.error .roundNotReady, st) ∧
    getNotarySetC gov st round chainID = (.error .roundNotReady, st) ∧
    getDKGSetC gov st round = (.error .roundNotReady, st) := by
  have hup : updateC gov st round = (.error .roundNotReady, st) := by
    simp [updateC, hEmpty]
  have hgo : getOrUpdateC gov st round = (.error .roundNotReady, st) := by
    simp [getOrUpdateC, getC, hFresh, hup]
  refine ⟨?_, ?_, ?_, ?_⟩
  · simp [existsC, hgo]
  · simp [getNodeSetC, hgo]
  · simp [getNotarySetC, hgo]
  · simp [getDKGSetC, hgo]

/-- Governance that is never ready. -/
def exGovNone : GovernanceM :=
  { nodeSetG := fun _ => none
    configG := fun _ => ⟨1, 2, 2, 3⟩
    crsG := fun _ => 7 }

theorem nodeSetCache_roundNotReady_all_ops_witness :
    existsC exGovNone ⟨[], []⟩ 0 1 = (.error .roundNotReady, (⟨[], []⟩ : CacheState)) ∧
    getNodeSetC exGovNone ⟨[], []⟩ 0 = (.error .roundNotReady, (⟨[], []⟩ : CacheState)) ∧
    getNotarySetC exGovNone ⟨[], []⟩ 0 9 = (.error .roundNotReady, (⟨[], []⟩ : CacheState)) ∧
    getDKGSetC exGovNone ⟨[], []⟩ 0 = (.error .roundNotReady, (⟨[], []⟩ : CacheState)) :=
  nodeSetCache_roundNotReady_all_ops exGovNone ⟨[], []⟩ 0 1 9 rfl rfl

/-- Claim C10: `GetNotarySet` lazily populates the requested round before
the chain-ID bounds check; the cached notary-set slice has exactly
`NumChains` entries, an out-of-range chain ID yields `invalidChainID` with
the round nevertheless cached, and an in-range chain ID returns the cached
notary set of that chain. -/
theorem getNotarySet_bounds
    (gov : GovernanceM) (st : CacheState) (round chainID : Nat) (keySet : List PubKey)
    (hReady : gov.nodeSetG round = some keySet)
    (hFresh : lookupA st.rounds round = none) :
    (updNewSets gov st round keySet).notarySet.length = (gov.configG round).numChains ∧
    ((gov.configG round).numChains ≤ chainID →
      getNotarySetC gov st round chainID =
        (.error .invalidChainID, updNewState gov st round keySet) ∧
      lookupA (updNewState gov st round keySet).rounds round =
        some (updNewSets gov st round keySet)) ∧
    (chainID < (gov.configG round).numChains →
      getNotarySetC gov st round chainID =
        (.ok ((updNewSets gov st round keySet).notarySet.getD chainID []),
          updNewState gov st round keySet)) := by
  have hlen : (updNewSets gov st round keySet).notarySet.length =
      (gov.configG round).numChains := by
    simp [updNewSets]
  have hgo : getOrUpdateC gov st round =
      (.ok (updNewSets gov st round keySet), updNewState gov st round keySet) := by
    simp [getOrUpdateC, getC, hFresh, updateC_eq gov st round keySet hReady]
  refine ⟨hlen, ?_, ?_⟩
  · intro hge
    constructor
    · simp [getNotarySetC, hgo, hlen, Nat.not_lt_of_ge hge]
    · exact updNewState_lookup gov st round keySet hFresh
  · intro hlt
    simp [getNotarySetC, hgo, hlen, hlt]

theorem getNotarySet_bounds_witness :
    ((updNewSets exGovA ⟨[], []⟩ 0 [1, 2, 3]).notarySet.length =
      (exGovA.configG 0).numChains ∧
    ((exGovA.configG 0).numChains ≤ 4 →
      getNotarySetC exGovA ⟨[], []⟩ 0 4 =
        (.error .invalidChainID, updNewState exGovA ⟨[], []⟩ 0 [1, 2, 3]) ∧
      lookupA (updNewState exGovA ⟨[], []⟩ 0 [1, 2, 3]).rounds 0 =
        some (updNewSets exGovA ⟨[], []⟩ 0 [1, 2, 3])) ∧
    (4 < (exGovA.configG 0).numChains →
      getNotarySetC exGovA ⟨[], []⟩ 0 4 =
        (.ok ((updNewSets exGovA ⟨[], []⟩ 0 [1, 2, 3]).notarySet.getD 4 []),
          updNewState exGovA ⟨[], []⟩ 0 [1, 2, 3]))) :=
  getNotarySet_bounds exGovA ⟨[], []⟩ 0 4 [1, 2, 3] (by decide) rfl

/-! ## Consensus orchestrator (core/consensus.go) -/

abbrev Hash := Nat
abbrev Sig := Nat
abbrev Time := Int

structure PositionM where
  shardID : Nat
  chainID : Nat
  height : Nat
  deriving DecidableEq

/-- The block fields read by `Consensus.sanityCheck` (hashing the remaining
fields is abstracted inside the crypto oracle). -/
structure BlockM where
  proposerID : NodeID
  position : PositionM
  parentHash : Hash
  timestamp : Time
  hash : Hash
  signature : Sig
  deriving DecidableEq

/-- Modelled from the spec: `types.Block.IsGenesis` (not under src/) — the
genesis block of a chain is the height-0 block with the empty parent hash
(the zero value, encoded as `0`). -/
def isGenesisM (b : BlockM) : Bool :=
  decide (b.position.height = 0) && decide (b.parentHash = 0)

/-- Modelled from the spec: the opaque cryptographic helpers used by
`Consensus.sanityCheck` but living outside src/ — `hashBlock` (canonical
block hash, `none` models its error return), `crypto.SigToPub` (public-key
recovery, `none` models its error return) and `crypto.Keccak256Hash` over
the recovered key bytes (the NodeID derivation). -/
structure CryptoOracle where
  hashBlockO : BlockM → Option Hash
  sigToPubO : Hash → Sig → Option PubKey
  keccakO : PubKey → NodeID

/-- The consensus fields consulted by `sanityCheck`: the RB module's chain
count and per-chain tip time, and the current configuration's block
intervals. -/
structure ConsensusEnv where
  chainNum : Nat
  chainTime : Nat → Time
  minBlockInterval : Time
  maxBlockInterval : Time

inductive ConsensusErr where
  | incorrectBlockPosition
  | incorrectBlockTime
  | incorrectHash
  | incorrectSignature
  | sigToPubErr
  | rbErr (code : Nat)
  | baErr (code : Nat)
  deriving DecidableEq

/-- `Consensus.sanityCheck`: position check, timestamp-in-interval check
(skipped for genesis blocks), recomputed-hash check, then signer recovery
and proposer check.  `sigToPubErr` stands for the raw error propagated when
`crypto.SigToPub` fails. -/
def sanityCheckC (oracle : CryptoOracle) (env : ConsensusEnv) (b : BlockM) :
    Except ConsensusErr Unit :=
  if b.position.shardID ≠ 0 ∨ env.chainNum ≤ b.position.chainID then
    .error .incorrectBlockPosition
  else if ¬ isGenesisM b ∧
      (b.timestamp < env.chainTime b.position.chainID + env.minBlockInterval ∨
        env.chainTime b.position.chainID + env.maxBlockInterval < b.timestamp) then
    .error .incorrectBlockTime
  else
    match oracle.hashBlockO b with
    | none => .error .incorrectHash
    | some h =>
      if h ≠ b.hash then .error .incorrectHash
      else
        match oracle.sigToPubO b.hash b.signature with
        | none => .error .sigToPubErr
        | some pk =>
          if b.proposerID ≠ oracle.keccakO pk then .error .incorrectSignature
          else .ok ()

/-- `Consensus.preProcessBlock`: sanity-check the block, then hand it to the
chain's BA module (`baProcess` abstracts `baModules[chainID].processBlock`). -/
def preProcessBlockC (oracle : CryptoOracle) (env : ConsensusEnv)
    (baProcess : BlockM → Except ConsensusErr Unit) (b : BlockM) :
    Except ConsensusErr Unit :=
  match sanityCheckC oracle env b with
  | .error e => .error e
  | .ok _ => baProcess b

/-- `Consensus.processBlock` up to its first failure point: the source
sanity-checks the block and only then runs the RB/total-ordering/delivery
pipeline, abstracted as `pipeline`. -/
def processBlockC (oracle : CryptoOracle) (env : ConsensusEnv)
    (pipeline : BlockM → Except ConsensusErr Unit) (b : BlockM) :
    Except ConsensusErr Unit :=
  match sanityCheckC oracle env b with
  | .error e => .error e
  | .ok _ => pipeline b

/-- Outcome of `consensusBAReceiver.ConfirmBlock`. -/
inductive ConfirmOutcome where
  | unknownBlockConfirmed
  | processFailed (e : ConsensusErr)
  | delivered
  deriving DecidableEq

/-- `consensusBAReceiver.ConfirmBlock`: look the hash up in the BA module's
candidate-block cache (modelled from the spec: a map keyed by block hash);
on a miss log `ErrUnknownBlockConfirmed` and return; on a hit run
`Consensus.processBlock` and, only if it succeeds, send `false` on the
`restartNotary` channel.  The second component lists the values sent on
`restartNotary` during the call. -/
def confirmBlockC (oracle : CryptoOracle) (env : ConsensusEnv)
    (pipeline : BlockM → Except ConsensusErr Unit)
    (candidates : List (Hash × BlockM)) (h : Hash) :
    ConfirmOutcome × List Bool :=
  match lookupA candidates h with
  | none => (.unknownBlockConfirmed, [])
  | some b =>
    match processBlockC oracle env pipeline b with
    | .error e => (.processFailed e, [])
    | .ok _ => (.delivered, [false])

/-- Claim C6 (amended): `sanityCheck` accepts a block exactly when its
position is valid (`ShardID = 0`, `ChainID < chainNum`), its timestamp lies
in `[chainTime + MinBlockInterval, chainTime + MaxBlockInterval]` unless it
is a genesis block, the recomputed hash equals `b.hash`, and the recovered
signer's NodeID equals `b.proposerID`; each failing check returns its
corresponding error, and a failing `sanityCheck` makes `preProcessBlock`
return that error without invoking the chain's BA module. -/
theorem consensus_sanityCheck_spec (oracle : CryptoOracle) (env : ConsensusEnv) (b : BlockM) :
    (sanityCheckC oracle env b = .ok () ↔
      ((b.position.shardID = 0 ∧ b.position.chainID < env.chainNum) ∧
        (isGenesisM b = true ∨
          (env.chainTime b.position.chainID + env.minBlockInterval ≤ b.timestamp ∧
            b.timestamp ≤ env.chainTime b.position.chainID + env.maxBlockInterval)) ∧
        oracle.hashBlockO b = some b.hash ∧
        (∃ pk, oracle.sigToPubO b.hash b.signature = some pk ∧
          b.proposerID = oracle.keccakO pk))) ∧
    (¬(b.position.shardID = 0 ∧ b.position.chainID < env.chainNum) →
      sanityCheckC oracle env b = .error .incorrectBlockPosition) ∧
    ((b.position.shardID = 0 ∧ b.position.chainID < env.chainNum) →
      isGenesisM b = false →
      (b.timestamp < env.chainTime b.position.chainID + env.minBlockInterval ∨
        env.chainTime b.position.chainID + env.maxBlockInterval < b.timestamp) →
      sanityCheckC oracle env b = .error .incorrectBlockTime) ∧
    ((b.position.shardID = 0 ∧ b.position.chainID < env.chainNum) →
      (isGenesisM b = true ∨
        (env.chainTime b.position.chainID + env.minBlockInterval ≤ b.timestamp ∧
          b.timestamp ≤ env.chainTime b.position.chainID + env.maxBlockInterval)) →
      oracle.hashBlockO b ≠ some b.hash →
      sanityCheckC oracle env b = .error .incorrectHash) ∧
    (∀ pk, (b.position.shardID = 0 ∧ b.position.chainID < env.chainNum) →
      (isGenesisM b = true ∨
        (env.chainTime b.position.chainID + env.minBlockInterval ≤ b.timestamp ∧
          b.timestamp ≤ env.chainTime b.position.chainID + env.maxBlockInterval)) →
      oracle.hashBlockO b = some b.hash →
      oracle.sigToPubO b.hash b.signature = some pk →
      b.proposerID ≠ oracle.keccakO pk →
      sanityCheckC oracle env b = .error .incorrectSignature) ∧
    (∀ e baProcess, sanityCheckC oracle env b = .error e →
      preProcessBlockC oracle env baProcess b = .error e) := by
  have htimeNeg : ∀ hpos : b.position.shardID = 0 ∧ b.position.chainID < env.chainNum,
      (isGenesisM b = true ∨
        (env.chainTime b.position.chainID + env.minBlockInterval ≤ b.timestamp ∧
          b.timestamp ≤ env.chainTime b.position.chainID + env.maxBlockInterval)) →
      ¬(¬ isGenesisM b ∧
        (b.timestamp < env.chainTime b.position.chainID + env.minBlockInterval ∨
          env.chainTime b.position.chainID + env.maxBlockInterval < b.timestamp)) := by
    intro _ hgood
    rintro ⟨hng, hout⟩
    rcases hgood with hg | hrange
    · exact hng (by simp [hg])
    · rcases hout with hlt | hgt
      · linarith [hrange.1]
      · linarith [hrange.2]
  have hposNeg : ∀ _ : b.position.shardID = 0 ∧ b.position.chainID < env.chainNum,
      ¬(b.position.shardID ≠ 0 ∨ env.chainNum ≤ b.position.chainID) := by
    intro hpos
    rintro (hne | hle)
    · exact hne hpos.1
    · omega
  refine ⟨⟨?_, ?_⟩, ?_, ?_, ?_, ?_, ?_⟩
  · intro hok
    unfold sanityCheckC at hok
    by_cases h1 : b.position.shardID ≠ 0 ∨ env.chainNum ≤ b.position.chainID
    · rw [if_pos h1] at hok
      exact absurd hok (by simp)
    · rw [if_neg h1] at hok
      by_cases h2 : ¬ isGenesisM b ∧
          (b.timestamp < env.chainTime b.position.chainID + env.minBlockInterval ∨
            env.chainTime b.position.chainID + env.maxBlockInterval < b.timestamp)
      · rw [if_pos h2] at hok
        exact absurd hok (by simp)
      · rw [if_neg h2] at hok
        cases hh : oracle.hashBlockO b with
        | none =>
          simp only [hh] at hok
          exact absurd hok (by simp)
        | some hv =>
          simp only [hh] at hok
          by_cases h3 : hv ≠ b.hash
          · rw [if_pos h3] at hok
            exact absurd hok (by simp)
          · rw [if_neg h3] at hok
            cases hs : oracle.sigToPubO b.hash b.signature with
            | none =>
              simp only [hs] at hok
              exact absurd hok (by simp)
            | some pk =>
              simp only [hs] at hok
              by_cases h4 : b.proposerID ≠ oracle.keccakO pk
              · rw [if_pos h4] at hok
                exact absurd hok (by simp)
              · push_neg at h1 h3 h4
                refine ⟨⟨h1.1, h1.2⟩, ?_, by rw [h3], ⟨pk, rfl, h4⟩⟩
                by_cases hg : isGenesisM b = true
                · exact Or.inl hg
                · right
                  have h2' : ¬(b.timestamp < env.chainTime b.position.chainID +
                      env.minBlockInterval ∨
                      env.chainTime b.position.chainID + env.maxBlockInterval <
                        b.timestamp) := fun hc => h2 ⟨hg, hc⟩
                  push_neg at h2'
                  exact h2'
  · rintro ⟨hpos, hgood, hh, pk, hs, hpk⟩
    unfold sanityCheckC
    rw [if_neg (hposNeg hpos), if_neg (htimeNeg hpos hgood)]
    simp only [hh]
    rw [if_neg (fun hc : b.hash ≠ b.hash => hc rfl)]
    simp only [hs]
    rw [if_neg (fun hc : b.proposerID ≠ oracle.keccakO pk => hc hpk)]
  · intro hbad
    have h1 : b.position.shardID ≠ 0 ∨ env.chainNum ≤ b.position.chainID := by omega
    unfold sanityCheckC
    rw [if_pos h1]
  · intro hpos hgen hout
    unfold sanityCheckC
    rw [if_neg (hposNeg hpos), if_pos ⟨by simp [hgen], hout⟩]
  · intro hpos hgood hh
    unfold sanityCheckC
    rw [if_neg (hposNeg hpos), if_neg (htimeNeg hpos hgood)]
    cases hhv : oracle.hashBlockO b with
    | none => rfl
    | some hv =>
      have hne : hv ≠ b.hash := fun hc => hh (by rw [hhv, hc])
      simp [hne]
  · intro pk hpos hgood hh hs hpk
    unfold sanityCheckC
    rw [if_neg (hposNeg hpos), if_neg (htimeNeg hpos hgood)]
    simp only [hh]
    rw [if_neg (fun hc : b.hash ≠ b.hash => hc rfl)]
    simp only [hs]
    rw [if_pos hpk]
  · intro e baProcess he
    unfold preProcessBlockC
    rw [he]

/-- Concrete oracle for the consensus examples: every block's recorded hash
matches and the signer always recovers to key 1. -/
def exOracle : CryptoOracle :=
  { hashBlockO := fun b => some b.hash
    sigToPubO := fun _ _ => some 1
    keccakO := fun pk => pk }

def exEnv : ConsensusEnv :=
  { chainNum := 1
    chainTime := fun _ => 0
    minBlockInterval := 1
    maxBlockInterval := 2 }

/-- A genesis block (height 0, empty parent hash) whose timestamp 100 lies
far outside `[chainTime + MinBlockInterval, chainTime + MaxBlockInterval]
= [1, 2]`. -/
def exGenesisBlock : BlockM :=
  { proposerID := 1
    position := ⟨0, 0, 0⟩
    parentHash := 0
    timestamp := 100
    hash := 5
    signature := 9 }

/-- Counterexample to claim C6 as stated: `sanityCheck` accepts this genesis
block although its timestamp lies outside the required interval — the
timestamp check is skipped for genesis blocks. -/
theorem consensus_sanityCheck_genesis_counterexample :
    sanityCheckC exOracle exEnv exGenesisBlock = .ok () ∧
    ¬(exEnv.chainTime exGenesisBlock.position.chainID + exEnv.minBlockInterval ≤
        exGenesisBlock.timestamp ∧
      exGenesisBlock.timestamp ≤
        exEnv.chainTime exGenesisBlock.position.chainID + exEnv.maxBlockInterval) := by
  constructor
  · rfl
  · decide

/-- A block with a nonzero shard ID, rejected by `sanityCheck`. -/
def exBadBlock : BlockM :=
  { proposerID := 1
    position := ⟨1, 0, 0⟩
    parentHash := 0
    timestamp := 0
    hash := 5
    signature := 9 }

theorem consensus_sanityCheck_spec_witness :
    sanityCheckC exOracle exEnv exBadBlock = .error .incorrectBlockPosition :=
  (consensus_sanityCheck_spec exOracle exEnv exBadBlock).2.1 (by decide)

/-- Claim C8 (amended): `ConfirmBlock(h)` with `h` absent from the BA
candidate cache is treated as `UnknownBlockConfirmed` — no block reaches the
RB pipeline and nothing is sent on `restartNotary`; with `h` present the
cached block is submitted to `Consensus.processBlock`, and `false` is sent
on `restartNotary` exactly when that delivery succeeds — on a delivery
error nothing is sent. -/
theorem consensusBAReceiver_confirmBlock_spec
    (oracle : CryptoOracle) (env : ConsensusEnv)
    (pipeline : BlockM → Except ConsensusErr Unit)
    (candidates : List (Hash × BlockM)) (h : Hash) :
    (lookupA candidates h = none →
      confirmBlockC oracle env pipeline candidates h = (.unknownBlockConfirmed, [])) ∧
    (∀ b, lookupA candidates h = some b →
      (processBlockC oracle env pipeline b = .ok () →
        confirmBlockC oracle env pipeline candidates h = (.delivered, [false])) ∧
      (∀ e, processBlockC oracle env pipeline b = .error e →
        confirmBlockC oracle env pipeline candidates h = (.processFailed e, []))) := by
  refine ⟨?_, ?_⟩
  · intro hn
    simp [confirmBlockC, hn]
  · intro b hb
    constructor
    · intro hok
      simp [confirmBlockC, hb, hok]
    · intro e he
      simp [confirmBlockC, hb, he]

/-- Counterexample to claim C8 as stated: hash 5 is present in the candidate
cache, yet the block is not delivered and nothing is sent on
`restartNotary`, because `processBlock` rejects the cached block
(`IncorrectBlockPosition` from `sanityCheck`). -/
theorem confirmBlock_present_no_signal_counterexample :
    lookupA [(5, exBadBlock)] 5 = some exBadBlock ∧
    confirmBlockC exOracle exEnv (fun _ => .ok ()) [(5, exBadBlock)] 5 =
      (.processFailed .incorrectBlockPosition, []) := by
  constructor
  · rfl
  · decide

theorem consensusBAReceiver_confirmBlock_spec_witness :
    confirmBlockC exOracle exEnv (fun _ => .ok ()) [] 5 = (.unknownBlockConfirmed, []) :=
  (consensusBAReceiver_confirmBlock_spec exOracle exEnv (fun _ => .ok ()) [] 5).1 rfl

structure WitnessAckM where
  proposerID : NodeID
  witnessHeight : Nat
  deriving DecidableEq

inductive WAErr where
  | cacheErr (e : CacheErr)
  | proposerNotInNodeSet
  | ccErr (code : Nat)
  deriving DecidableEq

/-- `Consensus.ProcessWitnessAck`: the source uses the hardcoded
`round := 0` (`con.round` is never advanced in this version of the code, so
round 0 is the current round), checks membership through
`NodeSetCache.Exists`, rejects non-members with `ErrProposerNotInNodeSet`,
and only then hands the ack to the compaction chain (`ccProcess` abstracts
`compactionChain.processWitnessAck`, which lives outside src/).  The result
carries the possibly-updated cache state and the compaction-chain state. -/
def processWitnessAckC {CC : Type} (gov : GovernanceM) (st : CacheState) (cc : CC)
    (ccProcess : CC → WitnessAckM → Except WAErr CC) (w : WitnessAckM) :
    Except WAErr Unit × CacheState × CC :=
  let round := 0
  match existsC gov st round w.proposerID with
  | (.error e, st') => (.error (.cacheErr e), st', cc)
  | (.ok b, st') =>
    if b then
      match ccProcess cc w with
      | .error e => (.error e, st', cc)
      | .ok cc' => (.ok (), st', cc')
    else (.error .proposerNotInNodeSet, st', cc)

/-- A true answer from `Exists` pins the queried node inside the (possibly
freshly populated) cached node set of that round. -/
theorem existsC_ok_true_mem (gov : GovernanceM) (st : CacheState) (round : Nat)
    (n : NodeID) (st' : CacheState)
    (h : existsC gov st round n = (.ok true, st')) :
    ∃ s, lookupA st'.rounds round = some s ∧ n ∈ s.nodeSet := by
  cases hget : getC st round with
  | some s0 =>
    simp only [existsC, getOrUpdateC, hget] at h
    injection h with h1 h2
    injection h1 with h1
    subst h2
    exact ⟨s0, hget, of_decide_eq_true h1⟩
  | none =>
    cases hg : gov.nodeSetG round with
    | none =>
      simp only [existsC, getOrUpdateC, hget, updateC, hg] at h
      exact absurd h (by simp)
    | some ks =>
      simp only [existsC, getOrUpdateC, hget, updateC_eq gov st round ks hg] at h
      injection h with h1 h2
      injection h1 with h1
      subst h2
      exact ⟨updNewSets gov st round ks, updNewState_lookup gov st round ks hget,
        of_decide_eq_true h1⟩

/-- Claim C9: `ProcessWitnessAck` accepts an ack only when its proposer is a
member of the current round's (round 0) node set: non-members are rejected
with `ErrProposerNotInNodeSet` and the compaction-chain state is unchanged,
cache failures propagate with the compaction-chain state unchanged, and an
accepted ack's proposer is provably in the cached round-0 node set. -/
theorem consensus_processWitnessAck_spec {CC : Type}
    (gov : GovernanceM) (st : CacheState) (cc : CC)
    (ccProcess : CC → WitnessAckM → Except WAErr CC) (w : WitnessAckM) :
    (∀ st', existsC gov st 0 w.proposerID = (.ok false, st') →
      processWitnessAckC gov st cc ccProcess w =
        (.error .proposerNotInNodeSet, st', cc)) ∧
    (∀ e st', existsC gov st 0 w.proposerID = (.error e, st') →
      processWitnessAckC gov st cc ccProcess w = (.error (.cacheErr e), st', cc)) ∧
    (∀ res st2 cc2, processWitnessAckC gov st cc ccProcess w = (.ok res, st2, cc2) →
      ∃ s, lookupA st2.rounds 0 = some s ∧ w.proposerID ∈ s.nodeSet) := by
  refine ⟨?_, ?_, ?_⟩
  · intro st' hex
    simp [processWitnessAckC, hex]
  · intro e st' hex
    simp [processWitnessAckC, hex]
  · intro res st2 cc2 hres
    unfold processWitnessAckC at hres
    cases hex : existsC gov st 0 w.proposerID with
    | mk r1 s1 =>
      cases r1 with
      | error e =>
        simp only [hex] at hres
        exact absurd hres (by simp)
      | ok b =>
        simp only [hex] at hres
        cases b with
        | false =>
          simp only [if_neg (by simp : ¬(false = true))] at hres
          exact absurd hres (by simp)
        | true =>
          simp only [if_pos rfl] at hres
          cases hcc : ccProcess cc w with
          | error e =>
            simp only [hcc] at hres
            exact absurd hres (by simp)
          | ok cc' =>
            simp only [hcc] at hres
            have hst : s1 = st2 := congrArg (fun q => q.2.1) hres
            rw [← hst]
            exact existsC_ok_true_mem gov st 0 w.proposerID s1 hex

/-- Governance never becomes ready for any witness-ack round in this
example, so a proposer outside the cached set is rejected. -/
theorem consensus_processWitnessAck_spec_witness :
    processWitnessAckC exGovA (⟨[], []⟩ : CacheState) (0 : Nat)
        (fun cc _ => .ok cc) ⟨99, 0⟩ =
      (.error .proposerNotInNodeSet, updNewState exGovA ⟨[], []⟩ 0 [1, 2, 3], 0) :=
  (consensus_processWitnessAck_spec exGovA ⟨[], []⟩ 0 (fun cc _ => .ok cc) ⟨99, 0⟩).1
    (updNewState exGovA ⟨[], []⟩ 0 [1, 2, 3]) rfl

/-! ## DKG / TSIG protocol (core/dkg-tsig-protocol.go) -/

abbrev DkgID := Nat
abbrev PKShares := Nat

structure DKGMasterPublicKeyM where
  proposerID : NodeID
  round : Nat
  dkgID : DkgID
  publicKeyShares : PKShares
  deriving DecidableEq

structure DKGPrivateShareM where
  proposerID : NodeID
  round : Nat
  share : Option Nat
  deriving DecidableEq

structure DKGComplaintM where
  proposerID : NodeID
  round : Nat
  privateShare : DKGPrivateShareM
  deriving DecidableEq

/-- Modelled from the spec: `types.DKGComplaint.IsNack` (not under src/) — a
complaint is a nack when its embedded private share is the zero/empty share
(modelled as `none`). -/
def isNackM (c : DKGComplaintM) : Bool := c.privateShare.share.isNone

/-- Modelled from the spec: the opaque pairing/BLS library
(`core/crypto/dkg`, not under src/) as used by `NewDKGGroupPublicKey`:
`PublicKeyShares.Share` (share extraction, `none` models its error return),
`PublicKeyShares.RecoverPublicKey` over the qualified IDs (`none` models its
error return) and `RecoverGroupPublicKey`. -/
structure DKGLibM where
  shareL : PKShares → DkgID → Option Nat
  recoverPublicKeyL : List (DkgID × Nat) → List DkgID → Option Nat
  recoverGroupPublicKeyL : List PKShares → Nat

inductive DkgErr where
  | shareNotFound
  | recoverFailed
  deriving DecidableEq

structure DKGGroupPublicKeyM where
  round : Nat
  qualifyIDs : List DkgID
  qualifyNodeIDs : List NodeID
  idMap : List (NodeID × DkgID)
  publicKeys : List (NodeID × Nat)
  groupPublicKey : Nat
  threshold : Int
  deriving DecidableEq

/-- Go set insertion `m[k] = struct{}{}` over a list-set. -/
def insertOnce (l : List NodeID) (n : NodeID) : List NodeID :=
  if n ∈ l then l else l ++ [n]

/-- `complaintsByID[nID]++` over an association list of counters. -/
def bumpA (m : List (NodeID × Nat)) (n : NodeID) : List (NodeID × Nat) :=
  match lookupA m n with
  | some _ => m.map (fun p => if p.1 = n then (p.1, p.2 + 1) else p)
  | none => m ++ [(n, 1)]

/-- The inner loop of the per-member public-key recovery in
`NewDKGGroupPublicKey`: collect `Share(recvID)` from every qualified
commitment vector, accumulating the `(id, share)` pairs fed to
`AddShare`. -/
def collectShares (L : DKGLibM) (recvID : DkgID) :
    List DKGMasterPublicKeyM → Except DkgErr (List (DkgID × Nat))
  | [] => .ok []
  | mpk :: rest =>
    match L.shareL mpk.publicKeyShares recvID with
    | none => .error .shareNotFound
    | some sh =>
      match collectShares L recvID rest with
      | .error e => .error e
      | .ok ps => .ok ((mpk.dkgID, sh) :: ps)

/-- The outer public-key recovery loop over the qualified members
(the source's `mpkMap[recvID]` indirection is resolved through the
qualified list itself, which carries the same master public keys). -/
def recoverKeys (L : DKGLibM) (qualified : List DKGMasterPublicKeyM)
    (qualifyIDs : List DkgID) :
    List DKGMasterPublicKeyM → Except DkgErr (List (NodeID × Nat))
  | [] => .ok []
  | mpk :: rest =>
    match collectShares L mpk.dkgID qualified with
    | .error e => .error e
    | .ok shares =>
      match L.recoverPublicKeyL shares qualifyIDs with
      | none => .error .recoverFailed
      | some pk =>
        match recoverKeys L qualified qualifyIDs rest with
        | .error e => .error e
        | .ok pks => .ok ((mpk.proposerID, pk) :: pks)

/-- `NewDKGGroupPublicKey`: any non-nack complaint disqualifies its target
outright (no validity check is performed here); strictly more than
`threshold` nack complaints disqualify; the qualified master public keys
are the proposers not disqualified; each qualified member's public key and
the group public key are recovered from exactly the qualified commitment
vectors. -/
def NewDKGGroupPublicKeyM (L : DKGLibM) (round : Nat)
    (mpks : List DKGMasterPublicKeyM) (complaints : List DKGComplaintM)
    (threshold : Int) : Except DkgErr DKGGroupPublicKeyM :=
  let disqualifyIDs0 : List NodeID :=
    complaints.foldl
      (fun ds c => if isNackM c then ds else insertOnce ds c.privateShare.proposerID) []
  let complaintsByID : List (NodeID × Nat) :=
    complaints.foldl
      (fun m c => if isNackM c then bumpA m c.privateShare.proposerID else m) []
  let disqualifyIDs : List NodeID :=
    complaintsByID.foldl
      (fun ds p => if threshold < (p.2 : Int) then insertOnce ds p.1 else ds)
      disqualifyIDs0
  let qualified := mpks.filter (fun mpk => decide (mpk.proposerID ∉ disqualifyIDs))
  let qualifyIDs := qualified.map (fun mpk => mpk.dkgID)
  let qualifyNodeIDs := qualified.map (fun mpk => mpk.proposerID)
  let idMap := qualified.map (fun mpk => (mpk.proposerID, mpk.dkgID))
  match recoverKeys L qualified qualifyIDs qualified with
  | .error e => .error e
  | .ok pubKeys =>
    .ok { round := round
          qualifyIDs := qualifyIDs
          qualifyNodeIDs := qualifyNodeIDs
          idMap := idMap
          publicKeys := pubKeys
          groupPublicKey :=
            L.recoverGroupPublicKeyL (qualified.map (fun mpk => mpk.publicKeyShares))
          threshold := threshold }

/-- The disqualification rule the code implements: some non-nack complaint
names `j`, or strictly more than `threshold` nack complaints name `j`. -/
def codeDisqualified (complaints : List DKGComplaintM) (threshold : Int)
    (j : NodeID) : Prop :=
  (∃ c ∈ complaints, isNackM c = false ∧ c.privateShare.proposerID = j) ∨
    threshold < (complaints.countP
      (fun c => isNackM c && decide (c.privateShare.proposerID = j)) : Int)

instance codeDisqualified.dec (complaints : List DKGComplaintM) (threshold : Int)
    (j : NodeID) : Decidable (codeDisqualified complaints threshold j) := by
  unfold codeDisqualified
  infer_instance

/-- Bool form of `codeDisqualified`, for use inside `List.filter`. -/
def codeDisqualifiedB (complaints : List DKGComplaintM) (threshold : Int)
    (j : NodeID) : Bool :=
  decide (codeDisqualified complaints threshold j)

/-- Keep exactly the proposers the code does not disqualify. -/
def qualifiedFilterB (complaints : List DKGComplaintM) (threshold : Int) :
    DKGMasterPublicKeyM → Bool :=
  fun mpk => !(codeDisqualifiedB complaints threshold mpk.proposerID)

/-- The claim's (spec §4.4 Phase 4) disqualification rule, stated from the
spec's words for comparison with the code: some non-nack complaint against
`j` *verifies as valid* (validity supplied by the predicate `valid`), or
nack complaints against `j` exceed the threshold. -/
def specDisqualified (valid : DKGComplaintM → Bool) (complaints : List DKGComplaintM)
    (threshold : Int) (j : NodeID) : Prop :=
  (∃ c ∈ complaints, isNackM c = false ∧ valid c = true ∧
      c.privateShare.proposerID = j) ∨
    threshold < (complaints.countP
      (fun c => isNackM c && decide (c.privateShare.proposerID = j)) : Int)

instance specDisqualified.dec (valid : DKGComplaintM → Bool)
    (complaints : List DKGComplaintM) (threshold : Int) (j : NodeID) :
    Decidable (specDisqualified valid complaints threshold j) := by
  unfold specDisqualified
  infer_instance

/-- The qualified proposers according to the claim's disqualification
rule. -/
def specQualifiedNodeIDs (valid : DKGComplaintM → Bool)
    (mpks : List DKGMasterPublicKeyM) (complaints : List DKGComplaintM)
    (threshold : Int) : List NodeID :=
  (mpks.filter (fun mpk =>
    !(decide (specDisqualified valid complaints threshold mpk.proposerID)))).map
    (fun mpk => mpk.proposerID)

/-! ### Qualification accounting -/

theorem insertOnce_mem (l : List NodeID) (a n : NodeID) :
    n ∈ insertOnce l a ↔ n ∈ l ∨ n = a := by
  unfold insertOnce
  by_cases h : a ∈ l
  · simp only [h, if_true]
    constructor
    · exact Or.inl
    · rintro (hn | hn)
      · exact hn
      · exact hn ▸ h
  · simp [h]

/-- Proof-side names for the let-bindings of `NewDKGGroupPublicKeyM`. -/
def disq0L (complaints : List DKGComplaintM) : List NodeID :=
  complaints.foldl
    (fun ds c => if isNackM c then ds else insertOnce ds c.privateShare.proposerID) []

def cByID (complaints : List DKGComplaintM) : List (NodeID × Nat) :=
  complaints.foldl
    (fun m c => if isNackM c then bumpA m c.privateShare.proposerID else m) []

def disqL (complaints : List DKGComplaintM) (threshold : Int) : List NodeID :=
  (cByID complaints).foldl
    (fun ds p => if threshold < (p.2 : Int) then insertOnce ds p.1 else ds)
    (disq0L complaints)

def qualifiedL (mpks : List DKGMasterPublicKeyM) (complaints : List DKGComplaintM)
    (threshold : Int) : List DKGMasterPublicKeyM :=
  mpks.filter (fun mpk => decide (mpk.proposerID ∉ disqL complaints threshold))

theorem NewDKGGroupPublicKeyM_eq (L : DKGLibM) (round : Nat)
    (mpks : List DKGMasterPublicKeyM) (complaints : List DKGComplaintM)
    (threshold : Int) :
    NewDKGGroupPublicKeyM L round mpks complaints threshold =
      match recoverKeys L (qualifiedL mpks complaints threshold)
          ((qualifiedL mpks complaints threshold).map (fun mpk => mpk.dkgID))
          (qualifiedL mpks complaints threshold) with
      | .error e => .error e
      | .ok pubKeys =>
        .ok { round := round
              qualifyIDs := (qualifiedL mpks complaints threshold).map (fun mpk => mpk.dkgID)
              qualifyNodeIDs :=
                (qualifiedL mpks complaints threshold).map (fun mpk => mpk.proposerID)
              idMap := (qualifiedL mpks complaints threshold).map
                (fun mpk => (mpk.proposerID, mpk.dkgID))
              publicKeys := pubKeys
              groupPublicKey := L.recoverGroupPublicKeyL
                ((qualifiedL mpks complaints threshold).map (fun mpk => mpk.publicKeyShares))
              threshold := threshold } := rfl

theorem foldl_disq0_mem (complaints : List DKGComplaintM) (ds0 : List NodeID) (j : NodeID) :
    j ∈ complaints.foldl
        (fun ds c => if isNackM c then ds else insertOnce ds c.privateShare.proposerID) ds0 ↔
      j ∈ ds0 ∨ ∃ c ∈ complaints, isNackM c = false ∧ c.privateShare.proposerID = j := by
  induction complaints generalizing ds0 with
  | nil => simp
  | cons c cs ih =>
    simp only [List.foldl_cons]
    by_cases hn : isNackM c
    · rw [if_pos hn, ih]
      constructor
      · rintro (h | h)
        · exact Or.inl h
        · exact Or.inr (by rcases h with ⟨c', hc', h1, h2⟩; exact ⟨c', .tail _ hc', h1, h2⟩)
      · rintro (h | ⟨c', hc', h1, h2⟩)
        · exact Or.inl h
        · rcases List.mem_cons.mp hc' with he | he
          · rw [he] at h1
            rw [hn] at h1
            cases h1
          · exact Or.inr ⟨c', he, h1, h2⟩
    · rw [if_neg hn, ih]
      have hnb : isNackM c = false := by
        cases hcb : isNackM c
        · rfl
        · exact absurd hcb hn
      rw [insertOnce_mem]
      constructor
      · rintro ((h | h) | h)
        · exact Or.inl h
        · exact Or.inr ⟨c, List.mem_cons_self _ _, hnb, h.symm⟩
        · exact Or.inr (by rcases h with ⟨c', hc', h1, h2⟩; exact ⟨c', .tail _ hc', h1, h2⟩)
      · rintro (h | ⟨c', hc', h1, h2⟩)
        · exact Or.inl (Or.inl h)
        · rcases List.mem_cons.mp hc' with he | he
          · rw [← he, h2]
            exact Or.inl (Or.inr rfl)
          · exact Or.inr ⟨c', he, h1, h2⟩

/-- The nack count stored for a node, `0` when absent. -/
def cntA (m : List (NodeID × Nat)) (j : NodeID) : Nat := (lookupA m j).getD 0

theorem bumpA_of_some (m : List (NodeID × Nat)) (n : NodeID) (v : Nat)
    (h : lookupA m n = some v) :
    bumpA m n = m.map (fun p => if p.1 = n then (p.1, p.2 + 1) else p) := by
  simp [bumpA, h]

theorem bumpA_of_none (m : List (NodeID × Nat)) (n : NodeID)
    (h : lookupA m n = none) : bumpA m n = m ++ [(n, 1)] := by
  simp [bumpA, h]

theorem bumpA_cnt (m : List (NodeID × Nat)) (n j : NodeID) :
    cntA (bumpA m n) j = cntA m j + (if j = n then 1 else 0) := by
  cases h : lookupA m n with
  | some v =>
    rw [bumpA_of_some m n v h]
    simp only [cntA]
    rw [lookupA_mapUpdate m n (fun q => q + 1) j]
    by_cases hj : j = n
    · simp [hj, h]
    · simp [hj]
  | none =>
    rw [bumpA_of_none m n h]
    simp only [cntA]
    rw [lookupA_append]
    by_cases hj : j = n
    · subst hj
      simp [h, lookupA]
    · cases hl : lookupA m j with
      | some v => simp [hl, hj]
      | none =>
        have hne : ¬(n = j) := fun he => hj he.symm
        simp [hl, lookupA, hne, hj]

theorem bumpA_keys_mem (m : List (NodeID × Nat)) (n j : NodeID) :
    j ∈ keysA (bumpA m n) ↔ j ∈ keysA m ∨ j = n := by
  cases h : lookupA m n with
  | some v =>
    rw [bumpA_of_some m n v h, keysA_mapUpdate m n (fun q => q + 1)]
    constructor
    · exact Or.inl
    · rintro (hj | hj)
      · exact hj
      · rw [hj]
        rcases lookupA_mem h with hm
        exact List.mem_map_of_mem Prod.fst hm
  | none =>
    rw [bumpA_of_none m n h]
    unfold keysA
    rw [List.map_append]
    simp

theorem bumpA_keys_nodup (m : List (NodeID × Nat)) (n : NodeID)
    (hN : (keysA m).Nodup) : (keysA (bumpA m n)).Nodup := by
  cases h : lookupA m n with
  | some v =>
    rw [bumpA_of_some m n v h, keysA_mapUpdate m n (fun q => q + 1)]
    exact hN
  | none =>
    rw [bumpA_of_none m n h]
    unfold keysA
    rw [List.map_append, List.nodup_append]
    refine ⟨hN, by simp, ?_⟩
    intro a ha hb
    simp only [List.map_cons, List.map_nil, List.mem_singleton] at hb
    rw [hb] at ha
    exact (lookupA_eq_none_iff m n).mp h ha

theorem foldl_bump_cnt (complaints : List DKGComplaintM) (m0 : List (NodeID × Nat))
    (j : NodeID) :
    cntA (complaints.foldl
        (fun m c => if isNackM c then bumpA m c.privateShare.proposerID else m) m0) j =
      cntA m0 j + complaints.countP
        (fun c => isNackM c && decide (c.privateShare.proposerID = j)) := by
  induction complaints generalizing m0 with
  | nil => simp
  | cons c cs ih =>
    simp only [List.foldl_cons, List.countP_cons]
    by_cases hn : isNackM c
    · rw [if_pos hn, ih, bumpA_cnt]
      by_cases hj : c.privateShare.proposerID = j
      · rw [if_pos hj.symm, hn, decide_eq_true hj]
        simp only [Bool.and_self, if_true]
        omega
      · have hj' : ¬(j = c.privateShare.proposerID) := fun he => hj he.symm
        rw [if_neg hj', hn, decide_eq_false hj]
        simp only [Bool.and_false]
        rw [if_neg Bool.false_ne_true]
        omega
    · rw [if_neg hn, ih]
      have hnb : isNackM c = false := by
        cases hcb : isNackM c
        · rfl
        · exact absurd hcb hn
      simp [hnb]

theorem foldl_bump_keys_mem (complaints : List DKGComplaintM) (m0 : List (NodeID × Nat))
    (j : NodeID) :
    j ∈ keysA (complaints.foldl
        (fun m c => if isNackM c then bumpA m c.privateShare.proposerID else m) m0) ↔
      j ∈ keysA m0 ∨
        ∃ c ∈ complaints, isNackM c = true ∧ c.privateShare.proposerID = j := by
  induction complaints generalizing m0 with
  | nil => simp
  | cons c cs ih =>
    simp only [List.foldl_cons]
    by_cases hn : isNackM c
    · rw [if_pos hn, ih]
      constructor
      · rintro (h | h)
        · rcases (bumpA_keys_mem m0 c.privateShare.proposerID j).mp h with h' | h'
          · exact Or.inl h'
          · exact Or.inr ⟨c, List.mem_cons_self _ _, hn, h'.symm⟩
        · exact Or.inr (by rcases h with ⟨c', hc', h1, h2⟩; exact ⟨c', .tail _ hc', h1, h2⟩)
      · rintro (h | ⟨c', hc', h1, h2⟩)
        · exact Or.inl ((bumpA_keys_mem m0 c.privateShare.proposerID j).mpr (Or.inl h))
        · rcases List.mem_cons.mp hc' with he | he
          · refine Or.inl ((bumpA_keys_mem m0 c.privateShare.proposerID j).mpr (Or.inr ?_))
            rw [← he, h2]
          · exact Or.inr ⟨c', he, h1, h2⟩
    · rw [if_neg hn, ih]
      constructor
      · rintro (h | h)
        · exact Or.inl h
        · exact Or.inr (by rcases h with ⟨c', hc', h1, h2⟩; exact ⟨c', .tail _ hc', h1, h2⟩)
      · rintro (h | ⟨c', hc', h1, h2⟩)
        · exact Or.inl h
        · rcases List.mem_cons.mp hc' with he | he
          · rw [he] at h1
            exact absurd h1 hn
          · exact Or.inr ⟨c', he, h1, h2⟩

theorem foldl_bump_keys_nodup (complaints : List DKGComplaintM)
    (m0 : List (NodeID × Nat)) (hN : (keysA m0).Nodup) :
    (keysA (complaints.foldl
        (fun m c => if isNackM c then bumpA m c.privateShare.proposerID else m) m0)).Nodup := by
  induction complaints generalizing m0 with
  | nil => exact hN
  | cons c cs ih =>
    simp only [List.foldl_cons]
    by_cases hn : isNackM c
    · rw [if_pos hn]
      exact ih _ (bumpA_keys_nodup m0 _ hN)
    · rw [if_neg hn]
      exact ih _ hN

theorem foldl_thresh_mem (entries : List (NodeID × Nat)) (ds0 : List NodeID)
    (t : Int) (j : NodeID) :
    j ∈ entries.foldl
        (fun ds p => if t < (p.2 : Int) then insertOnce ds p.1 else ds) ds0 ↔
      j ∈ ds0 ∨ ∃ p ∈ entries, p.1 = j ∧ t < (p.2 : Int) := by
  induction entries generalizing ds0 with
  | nil => simp
  | cons p ps ih =>
    simp only [List.foldl_cons]
    by_cases hp : t < (p.2 : Int)
    · rw [if_pos hp, ih]
      rw [insertOnce_mem]
      constructor
      · rintro ((h | h) | h)
        · exact Or.inl h
        · exact Or.inr ⟨p, List.mem_cons_self _ _, h.symm, hp⟩
        · exact Or.inr (by rcases h with ⟨q, hq, h1, h2⟩; exact ⟨q, .tail _ hq, h1, h2⟩)
      · rintro (h | ⟨q, hq, h1, h2⟩)
        · exact Or.inl (Or.inl h)
        · rcases List.mem_cons.mp hq with he | he
          · rw [he] at h1
            exact Or.inl (Or.inr h1.symm)
          · exact Or.inr ⟨q, he, h1, h2⟩
    · rw [if_neg hp, ih]
      constructor
      · rintro (h | h)
        · exact Or.inl h
        · exact Or.inr (by rcases h with ⟨q, hq, h1, h2⟩; exact ⟨q, .tail _ hq, h1, h2⟩)
      · rintro (h | ⟨q, hq, h1, h2⟩)
        · exact Or.inl h
        · rcases List.mem_cons.mp hq with he | he
          · rw [he] at h1 h2
            exact absurd h2 hp
          · exact Or.inr ⟨q, he, h1, h2⟩

theorem cByID_entry_iff (complaints : List DKGComplaintM) (threshold : Int)
    (ht : 0 ≤ threshold) (j : NodeID) :
    (∃ p ∈ cByID complaints, p.1 = j ∧ threshold < (p.2 : Int)) ↔
      threshold < (complaints.countP
        (fun c => isNackM c && decide (c.privateShare.proposerID = j)) : Int) := by
  have hnodup : (keysA (cByID complaints)).Nodup := by
    unfold cByID
    exact foldl_bump_keys_nodup complaints [] (by simp [keysA])
  have hcnt : cntA (cByID complaints) j = complaints.countP
      (fun c => isNackM c && decide (c.privateShare.proposerID = j)) := by
    unfold cByID
    simpa [cntA, lookupA] using foldl_bump_cnt complaints [] j
  constructor
  · rintro ⟨p, hp, h1, h2⟩
    have hl := lookupA_of_mem_nodup hnodup hp
    rw [h1] at hl
    have hv : cntA (cByID complaints) j = p.2 := by simp [cntA, hl]
    rw [← hcnt, hv]
    exact h2
  · intro h2
    have hpos : 0 < complaints.countP
        (fun c => isNackM c && decide (c.privateShare.proposerID = j)) := by omega
    have hkey : j ∈ keysA (cByID complaints) := by
      unfold cByID
      rw [foldl_bump_keys_mem complaints [] j]
      rcases List.countP_pos_iff.mp hpos with ⟨c, hc, hpred⟩
      rcases Bool.and_eq_true_iff.mp hpred with ⟨hn, hd⟩
      exact Or.inr ⟨c, hc, hn, of_decide_eq_true hd⟩
    cases hl : lookupA (cByID complaints) j with
    | none => exact absurd hkey ((lookupA_eq_none_iff _ _).mp hl)
    | some v =>
      have hv : cntA (cByID complaints) j = v := by simp [cntA, hl]
      refine ⟨(j, v), lookupA_mem hl, rfl, ?_⟩
      show threshold < (v : Int)
      rw [← hv, hcnt]
      exact h2

theorem disqL_mem (complaints : List DKGComplaintM) (threshold : Int) (j : NodeID)
    (ht : 0 ≤ threshold) :
    j ∈ disqL complaints threshold ↔ codeDisqualified complaints threshold j := by
  unfold disqL codeDisqualified
  rw [foldl_thresh_mem]
  have h0 : j ∈ disq0L complaints ↔
      False ∨ ∃ c ∈ complaints, isNackM c = false ∧ c.privateShare.proposerID = j := by
    unfold disq0L
    rw [foldl_disq0_mem]
    simp
  rw [h0, cByID_entry_iff complaints threshold ht j]
  constructor
  · rintro ((hf | he) | h2)
    · exact hf.elim
    · exact Or.inl he
    · exact Or.inr h2
  · rintro (he | h2)
    · exact Or.inl (Or.inr he)
    · exact Or.inr h2

theorem newDKG_ok_fields (L : DKGLibM) (round : Nat)
    (mpks : List DKGMasterPublicKeyM) (complaints : List DKGComplaintM)
    (threshold : Int) (g : DKGGroupPublicKeyM)
    (hok : NewDKGGroupPublicKeyM L round mpks complaints threshold = .ok g) :
    g.round = round ∧ g.threshold = threshold ∧
    g.qualifyNodeIDs = (qualifiedL mpks complaints threshold).map (fun mpk => mpk.proposerID) ∧
    g.groupPublicKey = L.recoverGroupPublicKeyL
      ((qualifiedL mpks complaints threshold).map (fun mpk => mpk.publicKeyShares)) := by
  rw [NewDKGGroupPublicKeyM_eq] at hok
  cases hrec : recoverKeys L (qualifiedL mpks complaints threshold)
      ((qualifiedL mpks complaints threshold).map (fun mpk => mpk.dkgID))
      (qualifiedL mpks complaints threshold) with
  | error e =>
    simp only [hrec] at hok
    exact absurd hok (by simp)
  | ok pks =>
    simp only [hrec] at hok
    injection hok with hok
    subst hok
    exact ⟨rfl, rfl, rfl, rfl⟩

/-- Claim C3 (amended): `NewDKGGroupPublicKey` disqualifies exactly those
`j` named by some non-nack complaint (no complaint-validity check is
performed by this function) or named by strictly more than `threshold` nack
complaints; the qualified set is the master-public-key proposers minus the
disqualified; and the group public key is recovered from exactly the
qualified members' public key shares. -/
theorem NewDKGGroupPublicKey_qualification (L : DKGLibM) (round : Nat)
    (mpks : List DKGMasterPublicKeyM) (complaints : List DKGComplaintM)
    (threshold : Int) (g : DKGGroupPublicKeyM)
    (ht : 0 ≤ threshold)
    (hok : NewDKGGroupPublicKeyM L round mpks complaints threshold = .ok g) :
    (∀ j, j ∈ g.qualifyNodeIDs ↔
      ((∃ mpk ∈ mpks, mpk.proposerID = j) ∧
        ¬ codeDisqualified complaints threshold j)) ∧
    g.groupPublicKey = L.recoverGroupPublicKeyL
      ((mpks.filter (qualifiedFilterB complaints threshold)).map
        (fun mpk => mpk.publicKeyShares)) ∧
    g.threshold = threshold := by
  obtain ⟨hr, htt, hq, hgp⟩ := newDKG_ok_fields L round mpks complaints threshold g hok
  have hfe : qualifiedL mpks complaints threshold =
      mpks.filter (qualifiedFilterB complaints threshold) := by
    unfold qualifiedL
    apply List.filter_congr
    intro mpk _
    unfold qualifiedFilterB codeDisqualifiedB
    rw [decide_not]
    congr 1
    exact decide_eq_decide.mpr (disqL_mem complaints threshold mpk.proposerID ht)
  refine ⟨?_, ?_, htt⟩
  · intro j
    rw [hq, hfe]
    constructor
    · intro hj
      rcases List.mem_map.mp hj with ⟨mpk, hm, he⟩
      have hmf := List.mem_filter.mp hm
      have h2 : ¬ codeDisqualified complaints threshold mpk.proposerID := by
        have hb := hmf.2
        unfold qualifiedFilterB codeDisqualifiedB at hb
        simp only [Bool.not_eq_true'] at hb
        exact of_decide_eq_false hb
      refine ⟨⟨mpk, hmf.1, he⟩, ?_⟩
      intro hc
      rw [← he] at hc
      exact h2 hc
    · rintro ⟨⟨mpk, hm, he⟩, hnd⟩
      refine List.mem_map.mpr ⟨mpk, List.mem_filter.mpr ⟨hm, ?_⟩, he⟩
      show qualifiedFilterB complaints threshold mpk = true
      unfold qualifiedFilterB codeDisqualifiedB
      rw [he, decide_eq_false hnd]
      rfl
  · rw [hgp, hfe]

def exDKGLib : DKGLibM :=
  { shareL := fun _ _ => some 0
    recoverPublicKeyL := fun _ _ => some 0
    recoverGroupPublicKeyL := fun _ => 0 }

def exMpk1 : DKGMasterPublicKeyM := ⟨1, 0, 11, 100⟩

/-- A non-nack complaint by node 2 against node 1 (it carries a share). -/
def exComplaint1 : DKGComplaintM := ⟨2, 0, ⟨1, 0, some 7⟩⟩

/-- Counterexample to claim C3 as stated: one non-nack complaint against
node 1 that does *not* verify as valid (validity is `fun _ => false`) still
disqualifies node 1 — `NewDKGGroupPublicKey` checks no complaint validity,
so the code qualifies nobody while the claim's rule qualifies node 1. -/
theorem NewDKGGroupPublicKey_validity_counterexample :
    (NewDKGGroupPublicKeyM exDKGLib 0 [exMpk1] [exComplaint1] 0).map
        (fun g => g.qualifyNodeIDs) = .ok [] ∧
    specQualifiedNodeIDs (fun _ => false) [exMpk1] [exComplaint1] 0 = [1] := by
  constructor
  · rfl
  · rfl

def exGPK1 : DKGGroupPublicKeyM := ⟨0, [11], [1], [(1, 11)], [(1, 0)], 0, 0⟩

theorem NewDKGGroupPublicKey_qualification_witness :
    (∀ j, j ∈ exGPK1.qualifyNodeIDs ↔
      ((∃ mpk ∈ [exMpk1], mpk.proposerID = j) ∧ ¬ codeDisqualified [] 0 j)) ∧
    exGPK1.groupPublicKey = exDKGLib.recoverGroupPublicKeyL
      (([exMpk1].filter (qualifiedFilterB [] 0)).map
        (fun mpk => mpk.publicKeyShares)) ∧
    exGPK1.threshold = 0 :=
  NewDKGGroupPublicKey_qualification exDKGLib 0 [exMpk1] [] 0 exGPK1 (by decide) rfl

/-! ### Threshold-signature protocol -/

/-- `types.DKGPartialSignature` (the fields the TSIG protocol reads). -/
structure DKGPartSigM where
  proposerID : NodeID
  round : Nat
  hash : Hash
  sigVal : Nat
  deriving DecidableEq

structure TsigProtocolM where
  groupPublicKey : DKGGroupPublicKeyM
  hash : Hash
  sigs : List (DkgID × Nat)
  deriving DecidableEq

/-- Errors of the TSIG protocol.  `notQualifyDKGParticipant` is
`ErrNotQualifyDKGParticipant`, `incorrectPartSigSignature` is
`ErrIncorrectPartialSignatureSignature`, `mismatchPartSigHash` is
`ErrMismatchPartialSignatureHash`, `incorrectPartSig` is
`ErrIncorrectPartialSignature`, `notEnoughPartSigs` is
`ErrNotEnoughtPartialSignatures`, `verifyErr` stands for a propagated
verification error, and `recoverErr` for a `dkg.RecoverSignature`
failure. -/
inductive TsigErr where
  | notQualifyDKGParticipant
  | incorrectPartSigSignature
  | mismatchPartSigHash
  | incorrectPartSig
  | notEnoughPartSigs
  | verifyErr
  | recoverErr
  deriving DecidableEq

/-- Modelled from the spec: the opaque crypto used by the TSIG protocol but
living outside src/ — `verifyDKGPartialSignatureSignature` (ECDSA check on
the carried signature, `none` models its error return),
`dkg.PublicKey.VerifySignature`, and `dkg.RecoverSignature` (Lagrange
interpolation over the DKG IDs, `.error` models its failure). -/
structure TsigLibM where
  verifyPsigSig : DKGPartSigM → Option Bool
  verifySigAgainst : Nat → Hash → Nat → Bool
  recoverSignatureL : List Nat → List DkgID → Except Unit Nat

/-- `tsigProtocol.sanityCheck`: qualified-participant check (against the
group key's per-node public keys), carried-signature verification, then
hash comparison. -/
def sanityCheckT (L : TsigLibM) (ts : TsigProtocolM) (psig : DKGPartSigM) :
    Except TsigErr Unit :=
  match lookupA ts.groupPublicKey.publicKeys psig.proposerID with
  | none => .error .notQualifyDKGParticipant
  | some _ =>
    match L.verifyPsigSig psig with
    | none => .error .verifyErr
    | some ok =>
      if !ok then .error .incorrectPartSigSignature
      else if psig.hash ≠ ts.hash then .error .mismatchPartSigHash
      else .ok ()

/-- `tsigProtocol.processPartialSignature`: a round mismatch is silently
ignored, the proposer must map to a DKG ID, the sanity checks must pass and
the partial signature must verify against the proposer's recovered public
key; only then is it stored under the proposer's DKG ID. -/
def processPartSigT (L : TsigLibM) (ts : TsigProtocolM) (psig : DKGPartSigM) :
    Except TsigErr Unit × TsigProtocolM :=
  if psig.round ≠ ts.groupPublicKey.round then (.ok (), ts)
  else match lookupA ts.groupPublicKey.idMap psig.proposerID with
  | none => (.error .notQualifyDKGParticipant, ts)
  | some id =>
    match sanityCheckT L ts psig with
    | .error e => (.error e, ts)
    | .ok _ =>
      if !(L.verifySigAgainst ((lookupA ts.groupPublicKey.publicKeys psig.proposerID).getD 0)
          ts.hash psig.sigVal) then
        (.error .incorrectPartSig, ts)
      else (.ok (), { ts with sigs := setA ts.sigs id psig.sigVal })

/-- `tsigProtocol.signature`: fewer accepted partial signatures than the
group key's threshold fails with `ErrNotEnoughtPartialSignatures`;
otherwise the accepted partials are interpolated over their DKG IDs. -/
def signatureT (L : TsigLibM) (ts : TsigProtocolM) : Except TsigErr Nat :=
  if (ts.sigs.length : Int) < ts.groupPublicKey.threshold then
    .error .notEnoughPartSigs
  else
    match L.recoverSignatureL (ts.sigs.map Prod.snd) (ts.sigs.map Prod.fst) with
    | .error _ => .error .recoverErr
    | .ok sig => .ok sig

/-- Claim C4: `signature()` fails with `NotEnoughPartialSignatures` exactly
when fewer than `threshold` partial signatures have been accepted; with at
least `threshold` accepted partials it interpolates them over their DKG IDs
(`RecoverSignature`); and `processPartialSignature` stores a partial
signature only after the qualification, signature, hash and
partial-signature-verification checks all pass (a round mismatch leaves the
state unchanged), while every error path leaves the accepted set
unchanged. -/
theorem tsig_signature_spec (L : TsigLibM) (ts : TsigProtocolM) :
    (signatureT L ts = .error .notEnoughPartSigs ↔
      (ts.sigs.length : Int) < ts.groupPublicKey.threshold) ∧
    (ts.groupPublicKey.threshold ≤ (ts.sigs.length : Int) →
      signatureT L ts =
        match L.recoverSignatureL (ts.sigs.map Prod.snd) (ts.sigs.map Prod.fst) with
        | .error _ => .error .recoverErr
        | .ok sig => .ok sig) ∧
    (∀ psig ts', processPartSigT L ts psig = (.ok (), ts') →
      ts' = ts ∨
      (psig.round = ts.groupPublicKey.round ∧
        ∃ id, lookupA ts.groupPublicKey.idMap psig.proposerID = some id ∧
          sanityCheckT L ts psig = .ok () ∧
          L.verifySigAgainst
            ((lookupA ts.groupPublicKey.publicKeys psig.proposerID).getD 0)
            ts.hash psig.sigVal = true ∧
          ts' = { ts with sigs := setA ts.sigs id psig.sigVal })) ∧
    (∀ psig e ts', processPartSigT L ts psig = (.error e, ts') → ts' = ts) := by
  refine ⟨?_, ?_, ?_, ?_⟩
  · constructor
    · intro he
      by_cases hlt : (ts.sigs.length : Int) < ts.groupPublicKey.threshold
      · exact hlt
      · exfalso
        unfold signatureT at he
        rw [if_neg hlt] at he
        cases hr : L.recoverSignatureL (ts.sigs.map Prod.snd) (ts.sigs.map Prod.fst) with
        | error u => simp only [hr] at he; exact absurd he (by simp)
        | ok sig => simp only [hr] at he; exact absurd he (by simp)
    · intro hlt
      unfold signatureT
      rw [if_pos hlt]
  · intro hge
    unfold signatureT
    rw [if_neg (not_lt_of_ge hge)]
  · intro psig ts' hok
    unfold processPartSigT at hok
    by_cases hr : psig.round ≠ ts.groupPublicKey.round
    · rw [if_pos hr] at hok
      injection hok with h1 h2
      exact Or.inl h2.symm
    · rw [if_neg hr] at hok
      push_neg at hr
      cases hid : lookupA ts.groupPublicKey.idMap psig.proposerID with
      | none =>
        simp only [hid] at hok
        exact absurd hok (by simp)
      | some id =>
        simp only [hid] at hok
        cases hsc : sanityCheckT L ts psig with
        | error e =>
          simp only [hsc] at hok
          exact absurd hok (by simp)
        | ok u =>
          simp only [hsc] at hok
          by_cases hv : L.verifySigAgainst
              ((lookupA ts.groupPublicKey.publicKeys psig.proposerID).getD 0)
              ts.hash psig.sigVal = true
          · rw [if_neg (by simp [hv])] at hok
            injection hok with h1 h2
            exact Or.inr ⟨hr, id, rfl, rfl, hv, h2.symm⟩
          · rw [if_pos (by simp [Bool.not_eq_true'] at hv ⊢; exact hv)] at hok
            exact absurd hok (by simp)
  · intro psig e ts' herr
    unfold processPartSigT at herr
    by_cases hr : psig.round ≠ ts.groupPublicKey.round
    · rw [if_pos hr] at herr
      exact absurd herr (by simp)
    · rw [if_neg hr] at herr
      cases hid : lookupA ts.groupPublicKey.idMap psig.proposerID with
      | none =>
        simp only [hid] at herr
        injection herr with h1 h2
        exact h2.symm
      | some id =>
        simp only [hid] at herr
        cases hsc : sanityCheckT L ts psig with
        | error e' =>
          simp only [hsc] at herr
          injection herr with h1 h2
          exact h2.symm
        | ok u =>
          simp only [hsc] at herr
          by_cases hv : L.verifySigAgainst
              ((lookupA ts.groupPublicKey.publicKeys psig.proposerID).getD 0)
              ts.hash psig.sigVal = true
          · rw [if_neg (by simp [hv])] at herr
            exact absurd herr (by simp)
          · rw [if_pos (by simp [Bool.not_eq_true'] at hv ⊢; exact hv)] at herr
            injection herr with h1 h2
            exact h2.symm

def exTsigLib : TsigLibM :=
  { verifyPsigSig := fun _ => some true
    verifySigAgainst := fun _ _ _ => true
    recoverSignatureL := fun _ _ => .ok 77 }

/-- A TSIG instance holding two accepted partial signatures under a
threshold of 3 — the spec's S5 scenario. -/
def exTsig : TsigProtocolM :=
  { groupPublicKey := ⟨0, [11, 12, 13], [1, 2, 3], [(1, 11), (2, 12), (3, 13)],
      [(1, 0), (2, 0), (3, 0)], 0, 3⟩
    hash := 42
    sigs := [(11, 5), (12, 6)] }

theorem tsig_signature_spec_witness :
    signatureT exTsigLib exTsig = .error .notEnoughPartSigs :=
  (tsig_signature_spec exTsigLib exTsig).1.mpr (by decide)

/-! ### TSigVerifierCache and the NewConsensus DKG registration -/

/-- The slice of the Governance interface consumed by `TSigVerifierCache`
(`IsDKGFinal`, `DKGMasterPublicKeys`, `DKGComplaints`, `Configuration`);
the Go code uses the same Governance object as the node-set cache, split
here by consumer. -/
structure TSigGovM where
  isDKGFinalG : Nat → Bool
  dkgMPKsG : Nat → List DKGMasterPublicKeyM
  dkgComplaintsG : Nat → List DKGComplaintM
  configT : Nat → ConfigM

structure TSigVerifierCacheM where
  verifier : List (Nat × DKGGroupPublicKeyM)
  minRound : Nat
  cacheSize : Nat
  deriving DecidableEq

inductive TVCErr where
  | roundAlreadyPurged
  | dkgErr (e : DkgErr)
  deriving DecidableEq

/-- The cache-trim loop at the end of `Update`: advance `minRound` until it
hits a present key.  Go loops unboundedly (and would not terminate on an
empty map); the model bounds the search with a fuel argument exceeding the
largest cached round. -/
def advanceMin (v : List (Nat × DKGGroupPublicKeyM)) : Nat → Nat → Nat
  | 0, m => m
  | fuel + 1, m => if (lookupA v m).isSome then m else advanceMin v fuel (m + 1)

/-- `TSigVerifierCache.Update`: purged-round check, cache hit, DKG-final
check, then group-public-key creation with threshold
`int(DKGSetSize/3) + 1` and cache maintenance (set `minRound` on first
insert, drop the `minRound` entry when over `cacheSize`, advance
`minRound` to the next present key). -/
def tsigCacheUpdate (L : DKGLibM) (gov : TSigGovM) (tc : TSigVerifierCacheM)
    (round : Nat) : Except TVCErr Bool × TSigVerifierCacheM :=
  if round < tc.minRound then (.error .roundAlreadyPurged, tc)
  else match lookupA tc.verifier round with
  | some _ => (.ok true, tc)
  | none =>
    if !(gov.isDKGFinalG round) then (.ok false, tc)
    else match NewDKGGroupPublicKeyM L round (gov.dkgMPKsG round)
        (gov.dkgComplaintsG round)
        (((gov.configT round).dkgSetSize / 3 + 1 : Nat) : Int) with
    | .error e => (.error (.dkgErr e), tc)
    | .ok gpk =>
      let minR := if tc.verifier.length = 0 then round else tc.minRound
      let v1 := setA tc.verifier round gpk
      let v2 := if tc.cacheSize < v1.length then
          v1.filter (fun p => decide (p.1 ≠ minR)) else v1
      let maxKey := (keysA v2).foldl max 0
      (.ok true,
        { verifier := v2
          minRound := advanceMin v2 (maxKey + 1) minR
          cacheSize := tc.cacheSize })

/-- The DKG registration performed by `NewConsensus` (consensus.go):
`cfgModule.registerDKG(0, len(nodes.IDs)/3)` — round 0 with threshold
`|nodeSet(0)| / 3`.  `none` models the panic when `GetNodeSet(0)` fails;
the node set is obtained through a freshly constructed `NodeSetCache`, as
in the source. -/
def newConsensusDKGRegistration (gov : GovernanceM) : Option (Nat × Nat) :=
  match getNodeSetC gov ⟨[], []⟩ 0 with
  | (.ok ns, _) => some (0, ns.length / 3)
  | (.error _, _) => none

/-- Claim C5 (amended): the threshold `TSigVerifierCache.Update` passes to
`NewDKGGroupPublicKey` — and hence the produced verifier's threshold — is
`⌊DKGSetSize/3⌋ + 1`; but `NewConsensus` registers the initial round's DKG
with threshold `⌊|nodeSet(0)|/3⌋`: no `+ 1`, and based on the node-set
size rather than `DKGSetSize`. -/
theorem dkg_threshold_spec (L : DKGLibM) (govT : TSigGovM) (tc : TSigVerifierCacheM)
    (round : Nat) (gpk : DKGGroupPublicKeyM) (gov : GovernanceM) (ks : List PubKey)
    (hmin : ¬ round < tc.minRound) (hmiss : lookupA tc.verifier round = none)
    (hfin : govT.isDKGFinalG round = true)
    (hok : NewDKGGroupPublicKeyM L round (govT.dkgMPKsG round) (govT.dkgComplaintsG round)
      (((govT.configT round).dkgSetSize / 3 + 1 : Nat) : Int) = .ok gpk)
    (hns : gov.nodeSetG 0 = some ks) :
    (tsigCacheUpdate L govT tc round).1 = .ok true ∧
    gpk.threshold = (((govT.configT round).dkgSetSize / 3 + 1 : Nat) : Int) ∧
    newConsensusDKGRegistration gov =
      some (0, (updNewSets gov ⟨[], []⟩ 0 ks).nodeSet.length / 3) := by
  refine ⟨?_, ?_, ?_⟩
  · unfold tsigCacheUpdate
    rw [if_neg hmin]
    simp only [hmiss, hfin, Bool.not_true, Bool.false_eq_true, if_false, hok]
  · exact (newDKG_ok_fields _ _ _ _ _ _ hok).2.1
  · unfold newConsensusDKGRegistration
    have hgo : getNodeSetC gov ⟨[], []⟩ 0 =
        (.ok (updNewSets gov ⟨[], []⟩ 0 ks).nodeSet, updNewState gov ⟨[], []⟩ 0 ks) := by
      simp [getNodeSetC, getOrUpdateC, getC, lookupA, updateC_eq gov ⟨[], []⟩ 0 ks hns]
    rw [hgo]

/-- Governance with seven nodes for round 0 and `DKGSetSize = 7`. -/
def exGov7 : GovernanceM :=
  { nodeSetG := fun r => if r = 0 then some [1, 2, 3, 4, 5, 6, 7] else none
    configG := fun _ => ⟨1, 7, 7, 7⟩
    crsG := fun _ => 3 }

/-- Counterexample to claim C5 as stated: `NewConsensus` registers the
initial round's DKG with threshold `7 / 3 = 2`, not
`⌊DKGSetSize/3⌋ + 1 = 3`. -/
theorem newConsensus_threshold_counterexample :
    newConsensusDKGRegistration exGov7 = some (0, 2) ∧
    (exGov7.configG 0).dkgSetSize / 3 + 1 = 3 := by
  constructor
  · rfl
  · rfl

def exTSigGov : TSigGovM :=
  { isDKGFinalG := fun _ => true
    dkgMPKsG := fun _ => []
    dkgComplaintsG := fun _ => []
    configT := fun _ => ⟨1, 7, 7, 7⟩ }

/-- The group public key created by `Update` for an empty DKG round at
`DKGSetSize = 7`: threshold `7/3 + 1 = 3`. -/
def exGPKEmpty : DKGGroupPublicKeyM := ⟨0, [], [], [], [], 0, 3⟩

theorem dkg_threshold_spec_witness :
    (tsigCacheUpdate exDKGLib exTSigGov ⟨[], 0, 4⟩ 0).1 = .ok true ∧
    exGPKEmpty.threshold = (((exTSigGov.configT 0).dkgSetSize / 3 + 1 : Nat) : Int) ∧
    newConsensusDKGRegistration exGov7 =
      some (0, (updNewSets exGov7 ⟨[], []⟩ 0 [1, 2, 3, 4, 5, 6, 7]).nodeSet.length / 3) :=
  dkg_threshold_spec exDKGLib exTSigGov ⟨[], 0, 4⟩ 0 exGPKEmpty exGov7
    [1, 2, 3, 4, 5, 6, 7] (by decide) rfl rfl rfl rfl
